import Mathlib

/-!
A shallow embedding of the `async-fetcher` crate's fetch engine
(`src/lib.rs`), for checking the natural-language specification against
the code.

Modelling conventions:
* paths are lists of components (`Path := List String`);
* the filesystem is a partial map from paths to file data; a file's
  mtime/atime are `Option Int` (Unix seconds); `none` stands for a
  timestamp the engine has not set (reading the mtime of such a file
  fails, mirroring `metadata.modified()` returning `Err`);
* the HTTP client is an environment function from requests to either a
  transport error (`Except.error`) or a response; a response body is a
  list of read chunks (each one result of `Read::read`);
* all issued requests are logged in the world state so that theorems can
  speak about which requests were sent;
* asynchronous completion order of the segmented downloader's part
  futures is an explicit schedule parameter (a permutation of the part
  indices); part futures touch pairwise distinct part files, so running
  their effects atomically in schedule order is faithful;
* timeouts never fire in the model (real time is not modelled), and
  low-level read/write errors are not modelled; fallible external
  operations that the claims depend on (set-file-times, rename, remove)
  are driven by environment predicates.
-/

namespace AsyncFetcher

/-- A filesystem path, as a list of components. -/
abbrev Path := List String

/-- Parent of a path, mirroring `std::path::Path::parent`. -/
def Path.parent : Path → Option Path
  | [] => none
  | p => some p.dropLast

/-- Final component of a path, mirroring `std::path::Path::file_name`. -/
def Path.fileName : Path → Option String
  | [] => none
  | p => p.getLast?

/-- Data stored at a path: byte content plus the timestamps tracked by the
engine.  `none` timestamps mean "not set by the engine". -/
structure FileData where
  content : List Nat
  mtime : Option Int
  atime : Option Int
deriving DecidableEq

/-- The filesystem: a partial map from paths to file data. -/
abbrev FS := Path → Option FileData

/-- HTTP method of a request issued by the engine. -/
inductive Method where
  | head
  | get
deriving DecidableEq

/-- An HTTP request as built by the engine: method, URI and the headers it
sets explicitly. -/
structure Req where
  method : Method
  uri : String
  headers : List (String × String)
deriving DecidableEq

/-- An HTTP response: status code, headers, and a body given as the list of
successive non-empty read chunks (a zero-length read, i.e. the end of the
list, terminates the read loop). -/
structure Resp where
  status : Nat
  headers : List (String × String)
  body : List (List Nat)
deriving DecidableEq

/-- The error taxonomy of `Error` in `src/lib.rs`.  Opaque `io::Error` /
`Exception` payloads are modelled as strings. -/
inductive Error where
  | Client (e : String)
  | Concatenate (e : String)
  | FileCreate (e : String)
  | FileTime (p : Path) (e : String)
  | InvalidRange (e : String)
  | MetadataRemove (e : String)
  | Nameless
  | OpenPart (p : Path) (e : String)
  | Parentless
  | TimedOut
  | Write (e : String)
  | Rename (e : String)
  | Status (code : Nat)
deriving DecidableEq

instance : DecidableEq (Except Error Unit) := fun a b =>
  match a, b with
  | .ok (), .ok () => isTrue rfl
  | .error x, .error y =>
    if h : x = y then isTrue (h ▸ rfl) else isFalse fun hc => h (Except.error.inj hc)
  | .ok (), .error _ => isFalse fun hc => Except.noConfusion hc
  | .error _, .ok () => isFalse fun hc => Except.noConfusion hc

/-- The events of `FetchEvent` in `src/lib.rs`.  The `u16` part index is
modelled as `Nat`. -/
inductive FetchEvent where
  | ContentLength (p : Path) (n : Nat)
  | Fetched (p : Path) (r : Except Error Unit)
  | Fetching (p : Path)
  | Progress (p : Path) (n : Nat)
  | PartFetching (p : Path) (i : Nat)
  | PartFetched (p : Path) (i : Nat)
deriving DecidableEq

/-- The external environment: the HTTP client, the external date-formatting
library functions, and the failure behaviour of the fallible filesystem
primitives consumed by the engine. -/
structure Env where
  /-- The shared HTTP client: `Except.error` is a transport failure. -/
  client : Req → Except String Resp
  /-- `chrono::DateTime::parse_from_rfc2822 ∘ with_timezone(&Utc)`,
  yielding the Unix timestamp in whole seconds. -/
  parse2822 : String → Option Int
  /-- `DateTime::<Utc>::from(mtime).to_rfc2822()` applied to a local mtime
  in whole seconds. -/
  rfc2822 : Nat → String
  /-- Paths on which `filetime::set_file_times` fails. -/
  ftimeFail : Path → Bool
  /-- Paths on which `fs::remove_file` fails. -/
  removeFail : Path → Bool
  /-- Pairs on which `fs::rename` fails, with the error payload. -/
  renameErr : Path → Path → Option String

/-- The mutable world: the filesystem, the events sent so far, and the log
of HTTP requests issued so far. -/
structure W where
  fs : FS
  events : List FetchEvent
  calls : List Req

/-- `File::create`: create or truncate the file at `p` (its observable
content becomes empty; timestamps are no longer engine-set). -/
def W.create (p : Path) (w : W) : W :=
  { w with fs := fun q => if q = p then some ⟨[], none, none⟩ else w.fs q }

/-- Extend or truncate a byte list to exactly `n` bytes (padding with
zeros), mirroring `File::set_len`. -/
def setLenContent (content : List Nat) (n : Nat) : List Nat :=
  if n ≤ content.length then content.take n
  else content ++ List.replicate (n - content.length) 0

/-- `File::set_len` on the file at `p` (no-op if the path is absent). -/
def W.setLen (p : Path) (n : Nat) (w : W) : W :=
  { w with
    fs := fun q =>
      if q = p then (w.fs p).map fun fd => { fd with content := setLenContent fd.content n }
      else w.fs q }

/-- Overwrite `bytes` into `content` starting at position `pos` (the file
cursor), extending the content as needed, mirroring `write_all` on a file
whose cursor is at `pos`. -/
def writeAt (content : List Nat) (pos : Nat) (bytes : List Nat) : List Nat :=
  content.take pos ++ bytes ++ content.drop (pos + bytes.length)

/-- Write `bytes` at cursor position `pos` of the file at `p`. -/
def W.write (p : Path) (pos : Nat) (bytes : List Nat) (w : W) : W :=
  { w with
    fs := fun q =>
      if q = p then (w.fs p).map fun fd => { fd with content := writeAt fd.content pos bytes }
      else w.fs q }

/-- Append `bytes` at the end of the file at `p` (the concatenated file's
write cursor sits at the end of everything appended so far). -/
def W.append (p : Path) (bytes : List Nat) (w : W) : W :=
  { w with
    fs := fun q =>
      if q = p then (w.fs p).map fun fd => { fd with content := fd.content ++ bytes }
      else w.fs q }

/-- `fs::remove_file` at `p` (the success case). -/
def W.remove (p : Path) (w : W) : W :=
  { w with fs := fun q => if q = p then none else w.fs q }

/-- `filetime::set_file_times` at `p` (the success case): both timestamps
become `t`. -/
def W.setTimes (p : Path) (t : Int) (w : W) : W :=
  { w with
    fs := fun q =>
      if q = p then (w.fs p).map fun fd => { fd with mtime := some t, atime := some t }
      else w.fs q }

/-- `fs::rename src dst` (the success case). -/
def W.rename (src dst : Path) (w : W) : W :=
  { w with fs := fun q => if q = dst then w.fs src else if q = src then none else w.fs q }

/-- The fetcher configuration (`struct Fetcher` minus the client, which
lives in `Env`).  `events : Bool` records whether an event sender is
attached. -/
structure Fetcher where
  concurrent_files : Option Nat
  connections_per_file : Option Nat
  part_size : Option Nat
  timeout : Option Nat
  hasEvents : Bool
deriving DecidableEq

/-- Send an event if an event sender is attached
(`sender.unbounded_send(...)`). -/
def emit (f : Fetcher) (ev : FetchEvent) (w : W) : W :=
  if f.hasEvents then { w with events := w.events ++ [ev] } else w

/-- Issue a request through the client, logging it. -/
def doRequest (env : Env) (r : Req) (w : W) : Except String Resp × W :=
  (env.client r, { w with calls := w.calls ++ [r] })

/-- Builder `Fetcher::concurrent_files`: values `≤ 1` are stored as
`None`. -/
def Fetcher.concurrentFiles (f : Fetcher) (concurrent : Nat) : Fetcher :=
  { f with concurrent_files := if concurrent > 1 then some concurrent else none }

/-- Builder `Fetcher::connections_per_file`: values `≤ 1` are stored as
`None`. -/
def Fetcher.connectionsPerFile (f : Fetcher) (connections : Nat) : Fetcher :=
  { f with connections_per_file := if connections > 1 then some connections else none }

/-- Builder `Fetcher::part_size`: zero is stored as `None`. -/
def Fetcher.partSize (f : Fetcher) (bytes : Nat) : Fetcher :=
  { f with part_size := if bytes = 0 then none else some bytes }

/-- The concurrency bound `from_stream` passes to `for_each_concurrent`:
`self.concurrent_files.unwrap_or(4)`. -/
def Fetcher.fromStreamLimit (f : Fetcher) : Nat :=
  f.concurrent_files.getD 4

/-! Decimal rendering of part indices.  The source renders the part index
with `numtoa` in base 10; `range.rs` (declared as `mod range;`) is not
under `src/`, so its serialization is modelled from the spec below. -/

/-- Fuel-driven helper for `decDigits` (structural recursion on the fuel,
so that the kernel can evaluate it; the fuel `n` always suffices for the
argument `n`). -/
def decAux : Nat → Nat → List Nat
  | 0, n => [n]
  | fuel + 1, n => if n < 10 then [n] else decAux fuel (n / 10) ++ [n % 10]

/-- Big-endian decimal digits of `n` (`[n]` when `n < 10`). -/
def decDigits (n : Nat) : List Nat := decAux n n

/-- Decimal digit to its ASCII character. -/
def digitChar (d : Nat) : Char := Char.ofNat (48 + d)

/-- Base-10 rendering of a natural number, as produced by
`numtoa_str(10, ..)`. -/
def decimalStr (n : Nat) : String :=
  String.mk ((decDigits n).map digitChar)

/-- Numeric value of a big-endian digit list. -/
def digitsVal (ds : List Nat) : Nat :=
  ds.foldl (fun a d => 10 * a + d) 0

/-! The range module.  `src/lib.rs` declares `mod range;` but `range.rs`
is not under `src/`, so these two functions are modelled from the spec. -/

/-- Modelled from the spec: `range::calc` (missing `src/range.rs`).
"Given `length L`, `parts N`, `index i`: part i covers
`[i·base + min(i, rem), (i+1)·base + min(i+1, rem))` with `base = L / N`,
`rem = L % N`; fails iff `N == 0` or `i ≥ N`." -/
def rangeCalc (length parts index : Nat) : Option (Nat × Nat) :=
  if parts = 0 ∨ parts ≤ index then none
  else
    some (index * (length / parts) + min index (length % parts),
      (index + 1) * (length / parts) + min (index + 1) (length % parts))

/-- Modelled from the spec: `range::to_string` (missing `src/range.rs`).
"Serialization: `bytes=<offset>-<offset_to - 1>` (inclusive RFC 7233
form)." -/
def rangeToString (offset offset_to : Nat) : String :=
  "bytes=" ++ decimalStr offset ++ "-" ++ decimalStr (offset_to - 1)

/-- Decimal value of an ASCII digit character, if it is one. -/
def charDigit? (c : Char) : Option Nat :=
  if 48 ≤ c.toNat ∧ c.toNat ≤ 57 then some (c.toNat - 48) else none

/-- Accumulating decimal parser over a character list. -/
def parseNatAux : List Char → Nat → Option Nat
  | [], acc => some acc
  | c :: cs, acc =>
    match charDigit? c with
    | some d => parseNatAux cs (acc * 10 + d)
    | none => none

/-- The number of values of `u64`, `2^64`, as a natural-number literal. -/
def u64Size : Nat := 18446744073709551616

/-- Model of Rust's `str::parse::<u64>()`: an optional leading `+`
followed by at least one decimal digit, rejecting values outside `u64`
range.  (Implemented directly on the character list because the engine's
header parsing must be executable.) -/
def parseU64 (s : String) : Option Nat :=
  let cs := if s.data.headD default = Char.ofNat 43 then s.data.tail else s.data
  match cs with
  | [] => none
  | _ =>
    match parseNatAux cs 0 with
    | some n => if n < u64Size then some n else none
    | none => none

/-- `validate`: a response with final status below 300 passes through; any
other status is a `Status` error. -/
def validate (response : Resp) : Except Error Resp :=
  if response.status < 300 then .ok response else .error (.Status response.status)

/-- `content_length`: parse the `Content-Length` header, ignoring an
unparseable value. -/
def content_length (headers : List (String × String)) : Option Nat :=
  (headers.lookup "content-length").bind parseU64

/-- `last_modified`: parse the `Last-Modified` header as RFC 2822 (via the
environment's parser), ignoring an unparseable value. -/
def last_modified (env : Env) (headers : List (String × String)) : Option Int :=
  (headers.lookup "last-modified").bind env.parse2822

/-- `head`: issue a HEAD request; `Ok(None)` when the server answers
`501 Not Implemented`, otherwise validate the response. -/
def head (env : Env) (uri : String) (w : W) : Except Error (Option Resp) × W :=
  let (r, w) := doRequest env ⟨.head, uri, []⟩ w
  match r with
  | .error e => (.error (.Client e), w)
  | .ok response =>
    match validate response with
    | .ok response => (.ok (some response), w)
    | .error (.Status 501) => (.ok none, w)
    | .error e => (.error e, w)

/-- `supports_range`: HEAD with a `Range` header; `true` iff the server
answers `206 Partial Content`, `false` for any other success, `Status`
error otherwise. -/
def supports_range (env : Env) (uri : String) (length : Nat) (w : W) :
    Except Error Bool × W :=
  let (r, w) := doRequest env ⟨.head, uri, [("range", rangeToString 0 length)]⟩ w
  match r with
  | .error e => (.error (.Client e), w)
  | .ok response =>
    if response.status = 206 then (.ok true, w)
    else
      match validate response with
      | .ok _ => (.ok false, w)
      | .error e => (.error e, w)

/-- The body-read loop of `Fetcher::get`: each non-empty chunk emits
`Progress(dest, chunk.length)` and is written at the file cursor; a
zero-length read ends the loop. -/
def readChunks (f : Fetcher) (dst dest : Path) :
    List (List Nat) → Nat → W → W
  | [], _, w => w
  | c :: rest, pos, w =>
    if c.length = 0 then w
    else
      let w := emit f (.Progress dest c.length) w
      let w := W.write dst pos c w
      readChunks f dst dest rest (pos + c.length) w

/-- `Fetcher::get`: create/truncate the file at `to`, preallocate if a
length is given, await and validate the response, record `Last-Modified`
into the `modified` out-parameter if still unset, short-circuit on 304
(note: this branch is dead in the source, since `validate` already
rejected every status ≥ 300), then stream the body into the file. -/
def Fetcher.get (f : Fetcher) (env : Env) (modified : Option Int) (request : Req)
    (dst dest : Path) (length : Option Nat) (w : W) :
    (Except Error Path × Option Int) × W :=
  let w := W.create dst w
  let w := match length with
    | some n => W.setLen dst n w
    | none => w
  let (r, w) := doRequest env request w
  match r with
  | .error e => ((.error (.Client e), modified), w)
  | .ok resp =>
    match validate resp with
    | .error e => ((.error e, modified), w)
    | .ok response =>
      let modified := if modified.isNone then last_modified env response.headers else modified
      if response.status = 304 then ((.ok dst, modified), w)
      else
        let w := readChunks f dst dest response.body 0 w
        ((.ok dst, modified), w)

/-- The trailing `if let Some(modified) = ... { set_file_times ... }` block
shared by `Fetcher::request` and `Fetcher::get_many`. -/
def applyModified (env : Env) (modified : Option Int) (path : Path) (w : W) :
    Except Error Unit × W :=
  match modified with
  | none => (.ok (), w)
  | some t =>
    if env.ftimeFail path then (.error (.FileTime path "io"), w)
    else (.ok (), W.setTimes path t w)

/-- The part file path `<parent>/<filename>.part<i>`. -/
def partPath (parent : Path) (fname : String) (i : Nat) : Path :=
  parent ++ [fname ++ ".part" ++ decimalStr i]

/-- The byte length of part `task`: `offset_to - offset` of its range
(zero for an invalid range, via `unwrap_or((0, 0))`). -/
def expectedLen (length tasks task : Nat) : Nat :=
  let (offset, offset_to) := (rangeCalc length tasks task).getD (0, 0)
  offset_to - offset

/-- The ranged GET request built for part `task`: URL chosen round-robin
(`uris[task % uris.len()]`), `Range` header from the computed range. -/
def partReq (length tasks : Nat) (uris : List String) (task : Nat) : Req :=
  let uri := uris.getD (task % uris.length) ""
  let (offset, offset_to) := (rangeCalc length tasks task).getD (0, 0)
  ⟨.get, uri, [("range", rangeToString offset offset_to)]⟩

/-- One part future of `Fetcher::get_many`: compute the byte range, emit
`PartFetching`, fetch the range into the part file via `Fetcher::get`
(preallocated to the part length), emit `PartFetched`, and yield the
result.  The `modified` out-parameter is a `Copy` value in the source, so
each part future operates on its own copy and the outer value is
unaffected. -/
def Fetcher.partFetch (f : Fetcher) (env : Env) (length tasks : Nat)
    (uris : List String) (dst parent : Path) (fname : String)
    (modified : Option Int) (task : Nat) (w : W) : Except Error Path × W :=
  let part_path := partPath parent fname task
  let w := emit f (.PartFetching dst task) w
  let ((result, _), w) := f.get env modified (partReq length tasks uris task) part_path dst
    (some (expectedLen length tasks task)) w
  let w := emit f (.PartFetched dst task) w
  (result, w)

/-- Run the part futures in the completion order given by the schedule
`ord`, collecting each task's result.  The part futures write pairwise
distinct part files, so executing their effects atomically in schedule
order is a faithful model of their concurrent execution. -/
def Fetcher.runParts (f : Fetcher) (env : Env) (length tasks : Nat)
    (uris : List String) (dst parent : Path) (fname : String)
    (modified : Option Int) : List Nat → W → List (Nat × Except Error Path) × W
  | [], w => ([], w)
  | i :: rest, w =>
    let (r, w) := f.partFetch env length tasks uris dst parent fname modified i w
    let (rs, w) := f.runParts env length tasks uris dst parent fname modified rest w
    ((i, r) :: rs, w)

/-- `concatenate`: open the part file, copy its content to the end of the
already-open concatenated file, then best-effort delete the part file (a
deletion failure is logged and swallowed). -/
def concatenate (env : Env) (concatenated : Path) (part_path : Path) (w : W) :
    Except Error Unit × W :=
  match w.fs part_path with
  | none => (.error (.OpenPart part_path "open"), w)
  | some fd =>
    let w := W.append concatenated fd.content w
    let w := if env.removeFail part_path then w else W.remove part_path w
    (.ok (), w)

/-- The `while let Some(task_result) = parts.next()` loop of
`Fetcher::get_many`: consume the part results in ascending task order,
aborting on the first error, appending each completed part file to the
concatenated file.  (For every schedule that is a permutation of the task
indices — i.e. every real execution — each lookup succeeds; the default
branch is unreachable.) -/
def assembleLoop (env : Env) (dst : Path) (results : List (Nat × Except Error Path)) :
    List Nat → W → Except Error Unit × W
  | [], w => (.ok (), w)
  | i :: rest, w =>
    match (results.lookup i).getD (.error (.Client "part not scheduled")) with
    | .error e => (.error e, w)
    | .ok part_path =>
      match concatenate env dst part_path w with
      | (.error e, w) => (.error e, w)
      | (.ok (), w) => assembleLoop env dst results rest w

/-- `Fetcher::get_many`: check the destination has a parent and a file
name, create/truncate the concatenated file, dispatch one ranged part
fetch per task (round-robin over the URLs), assemble the completed part
files in ascending task order, and finally apply the `modified` hint as
the file times. -/
def Fetcher.get_many (f : Fetcher) (env : Env) (length tasks : Nat)
    (uris : List String) (dst : Path) (modified : Option Int) (ord : List Nat)
    (w : W) : Except Error Unit × W :=
  match Path.parent dst with
  | none => (.error .Parentless, w)
  | some parent =>
    match Path.fileName dst with
    | none => (.error .Nameless, w)
    | some fname =>
      let w := W.create dst w
      let (results, w) := f.runParts env length tasks uris dst parent fname modified ord w
      match assembleLoop env dst results (List.range tasks) w with
      | (.error e, w) => (.error e, w)
      | (.ok (), w) => applyModified env modified dst w

/-- The modulus `2^64` of Rust's wrapping `as u64` cast, written as a
literal so that the kernel can evaluate it. -/
def u64Mod : Int := 18446744073709551616

/-- Outcome of the freshness-check block of `Fetcher::request`: either an
early return, or continue with the accumulated `modified`, `length` and
`if_modified_since` values. -/
inductive FreshOut where
  | done (r : Except Error Unit)
  | cont (modified : Option Int) (length : Option Nat) (ims : Option String)

/-- The freshness-check block of `Fetcher::request` (the
`if to.exists()` paragraph): HEAD the first URL; when both
`Content-Length` and `Last-Modified` are present, compare them with the
local metadata, returning success when both match; on a mismatch record
the local mtime as an `If-Modified-Since` candidate and remember the
expected length; when the local metadata cannot be read, remove the stale
file.  (A negative local mtime panics in the source via
`duration_since(UNIX_EPOCH).expect(..)`; the model clamps it to zero.) -/
def freshCheck (env : Env) (uri0 : String) (dst : Path) (w : W) : FreshOut × W :=
  if (w.fs dst).isSome then
    match head env uri0 w with
    | (.error e, w) => (.done (.error e), w)
    | (.ok none, w) => (.cont none none none, w)
    | (.ok (some response), w) =>
      let cl := content_length response.headers
      let modified := last_modified env response.headers
      match cl, modified with
      | some contentLength, some lastModified =>
        match w.fs dst with
        | some metadata =>
          match metadata.mtime with
          | none => (.done (.error (.Write "metadata modified")), w)
          | some mtime =>
            let ts := mtime.toNat
            if metadata.content.length = contentLength ∧
                ts = (lastModified.emod u64Mod).toNat then
              (.done (.ok ()), w)
            else
              (.cont modified (some contentLength) (some (env.rfc2822 ts)), w)
        | none => (.cont modified none none, W.remove dst w)
      | _, _ => (.cont modified none none, w)
  else (.cont none none none, w)

/-- Outcome of the range-parallel block of `Fetcher::request`: either an
early return with the segmented download's result, or fall through to the
single-stream path with the (possibly overwritten) `modified` value. -/
inductive SegOut where
  | done (r : Except Error Unit)
  | cont (modified : Option Int)

/-- The range-parallel block of `Fetcher::request` (the
`if let Some(tasks) = self.connections_per_file` paragraph): HEAD the
first URL, take `Last-Modified` from it, reuse the length learned by the
freshness check or read it from the headers, and when the length is known
and the server supports ranges, emit `ContentLength` and dispatch
`get_many`. -/
def Fetcher.segPhase (f : Fetcher) (env : Env) (uri0 : String)
    (uris : List String) (dst : Path) (ord : List Nat) (modified0 : Option Int)
    (length0 : Option Nat) (w : W) : SegOut × W :=
  match f.connections_per_file with
  | none => (.cont modified0, w)
  | some tasks =>
    match head env uri0 w with
    | (.error e, w) => (.done (.error e), w)
    | (.ok none, w) => (.cont modified0, w)
    | (.ok (some response), w) =>
      let modified := last_modified env response.headers
      let length := match length0 with
        | some l => some l
        | none => content_length response.headers
      match length with
      | none => (.cont modified, w)
      | some len =>
        match supports_range env uri0 len w with
        | (.error e, w) => (.done (.error e), w)
        | (.ok false, w) => (.cont modified, w)
        | (.ok true, w) =>
          let w := emit f (.ContentLength dst len) w
          let (r, w) := f.get_many env len tasks uris dst modified ord w
          (.done r, w)

/-- The single-stream tail of `Fetcher::request`: the GET carrying
`If-Modified-Since` when recorded, retried once without the header on
`501 Not Implemented`, followed by the application of the observed
`Last-Modified` as the file times. -/
def Fetcher.singleStream (f : Fetcher) (env : Env) (uri0 : String)
    (modified : Option Int) (ims : Option String) (dst : Path) (w : W) :
    Except Error Unit × W :=
  let req1 : Req := ⟨.get, uri0,
    match ims with
    | some s => [("if-modified-since", s)]
    | none => []⟩
  match f.get env modified req1 dst dst none w with
  | ((.ok path, modified), w) => applyModified env modified path w
  | ((.error (.Status 501), modified), w) =>
    let req2 : Req := ⟨.get, uri0, []⟩
    match f.get env modified req2 dst dst none w with
    | ((.ok path, modified), w) => applyModified env modified path w
    | ((.error e, _), w) => (.error e, w)
  | ((.error e, _), w) => (.error e, w)

/-- `Fetcher::request`: the fetch orchestrator for one logical file.
Freshness check, then the range-parallel path, then the single-stream GET
carrying `If-Modified-Since` when recorded — with a single retry without
the header when the server answers `501 Not Implemented` — and finally the
application of the observed `Last-Modified` as the file times.  (The
source indexes `uris[0]` and would panic on an empty slice; the model
substitutes the empty URI.) -/
def Fetcher.request (f : Fetcher) (env : Env) (uris : List String) (dst : Path)
    (ord : List Nat) (w : W) : Except Error Unit × W :=
  let uri0 := uris.headD ""
  match freshCheck env uri0 dst w with
  | (.done r, w) => (r, w)
  | (.cont modified length ims, w) =>
    match f.segPhase env uri0 uris dst ord modified length w with
    | (.done r, w) => (r, w)
    | (.cont modified, w) => f.singleStream env uri0 modified ims dst w

/-- A fetch job (`struct Source`). -/
structure Source where
  urls : List String
  dest : Path
  part : Option Path

/-- One job of `Fetcher::from_stream`: emit `Fetching`, run the
orchestrator — against the partial path when one is given, renaming it to
the destination on success — and emit the terminal `Fetched` event with
the outcome. -/
def Fetcher.processSource (f : Fetcher) (env : Env) (s : Source) (ord : List Nat)
    (w : W) : W :=
  let w := emit f (.Fetching s.dest) w
  let (result, w) :=
    match s.part with
    | some part =>
      match f.request env s.urls part ord w with
      | (.ok (), w) =>
        match env.renameErr part s.dest with
        | some e => ((.error (.Rename e) : Except Error Unit), w)
        | none => (.ok (), W.rename part s.dest w)
      | (.error e, w) => ((.error e : Except Error Unit), w)
    | none => f.request env s.urls s.dest ord w
  emit f (.Fetched s.dest result) w

/-- Pure description of the body-read loop's effect on a file's content:
successive `write_all`s of the chunks at the advancing cursor, stopping at
the first zero-length read. -/
def runBody : List Nat → Nat → List (List Nat) → List Nat
  | content, _, [] => content
  | content, pos, c :: rest =>
    if c.length = 0 then content
    else runBody (writeAt content pos c) (pos + c.length) rest

/-- Content of a freshly created file after an optional `set_len`. -/
def initContent : Option Nat → List Nat
  | none => []
  | some n => setLenContent [] n

/-- Content of the file written by one `Fetcher::get` call that streamed
`chunks` after preallocating `length` bytes. -/
def fileAfterGet (length : Option Nat) (chunks : List (List Nat)) : List Nat :=
  runBody (initContent length) 0 chunks

/-- The `Progress` events emitted while streaming `chunks` to `dest`. -/
def chunkEvents (dest : Path) : List (List Nat) → List FetchEvent
  | [] => []
  | c :: rest =>
    if c.length = 0 then []
    else .Progress dest c.length :: chunkEvents dest rest

/-- Number of terminal `Fetched` events for destination `d`. -/
def countFetched (d : Path) (evs : List FetchEvent) : Nat :=
  (evs.filter fun e =>
    match e with
    | .Fetched p _ => decide (p = d)
    | _ => false).length

/-- The set of paths the orchestrator may write for a destination `dst`:
the destination itself and its part files. -/
def inFootprint (dst q : Path) : Prop :=
  q = dst ∨ ∃ parent fname i, Path.parent dst = some parent ∧
    Path.fileName dst = some fname ∧ q = partPath parent fname i

/-- `Fetcher::from_stream`: consume the jobs, processing each one (the
bound passed to `for_each_concurrent` is `Fetcher.fromStreamLimit`; the
model executes the per-job blocks atomically, one schedule per job), and
return `Ok(())` once the input is exhausted. -/
def Fetcher.from_stream (f : Fetcher) (env : Env) :
    List Source → List (List Nat) → W → Except Error Unit × W
  | [], _, w => (.ok (), w)
  | s :: rest, ords, w =>
    let w := f.processSource env s (ords.headD []) w
    f.from_stream env rest ords.tail w

/-! Concrete fixtures used by closed theorems and witnesses. -/

/-- The destination path `/t/x` of the concrete scenarios. -/
def pathTX : Path := ["t", "x"]

/-- A fetcher with the default configuration and no event sender. -/
def fPlain : Fetcher := ⟨none, none, none, none, false⟩

/-- A fetcher with the default configuration and an event sender. -/
def fEv : Fetcher := ⟨none, none, none, none, true⟩

/-- An environment whose filesystem primitives all succeed, with a
one-entry RFC 2822 parse table (`"LM" ↦ 1445412480`). -/
def okFsEnv (client : Req → Except String Resp) : Env where
  client := client
  parse2822 := fun s => if s = "LM" then some 1445412480 else none
  rfc2822 := fun n => "D" ++ decimalStr n
  ftimeFail := fun _ => false
  removeFail := fun _ => false
  renameErr := fun _ _ => none

/-- A server that reports `Content-Length: 1024` and a `Last-Modified` on
HEAD, and answers every GET with `304 Not Modified`. -/
def env304 : Env := okFsEnv fun r =>
  match r.method with
  | .head => .ok ⟨200, [("content-length", "1024"), ("last-modified", "LM")], []⟩
  | .get => .ok ⟨304, [("last-modified", "LM")], []⟩

/-- A world with an existing three-byte destination file (so its length
mismatches `Content-Length: 1024`) with mtime 5. -/
def w304 : W := ⟨fun q => if q = pathTX then some ⟨[1, 2, 3], some 5, none⟩ else none, [], []⟩

/-- A server answering every request with `200 OK` and an empty body. -/
def env200 : Env := okFsEnv fun _ => .ok ⟨200, [], []⟩

/-- A server whose HEAD reports `Content-Length: 1024` with a
`Last-Modified`, and that answers the conditional GET (non-empty headers)
with a bare 501 and the unconditional GET with a 501 carrying a marker
header. -/
def env501 : Env := okFsEnv fun r =>
  match r.method with
  | .head => .ok ⟨200, [("content-length", "1024"), ("last-modified", "LM")], []⟩
  | .get => if r.headers = [] then .ok ⟨501, [("x", "y")], []⟩ else .ok ⟨501, [], []⟩

/-- A server whose HEAD reports `Content-Length: 3` and a `Last-Modified`
of 1445412480, and whose GET fails with a 500. -/
def envFresh : Env := okFsEnv fun r =>
  match r.method with
  | .head => .ok ⟨200, [("content-length", "3"), ("last-modified", "LM")], []⟩
  | .get => .ok ⟨500, [], []⟩

/-- A world whose destination file is current: length 3, mtime
1445412480. -/
def wFresh : W :=
  ⟨fun q => if q = pathTX then some ⟨[7, 8, 9], some 1445412480, none⟩ else none, [], []⟩

/-- An empty world: empty filesystem, no events, no calls. -/
def w0 : W := ⟨fun _ => none, [], []⟩

/-- A server for the segmented scenarios: ranged GETs for `bytes=0-1` and
`bytes=2-3` return the two halves of the 4-byte file `[1,2,3,4]`. -/
def envSeg : Env := okFsEnv fun r =>
  if r.headers = [("range", "bytes=0-1")] then .ok ⟨200, [], [[1, 2]]⟩
  else if r.headers = [("range", "bytes=2-3")] then .ok ⟨200, [], [[3, 4]]⟩
  else .error "unexpected"

/-- The per-part responses of `envSeg`. -/
def respSeg (i : Nat) : Resp :=
  if i = 0 then ⟨200, [], [[1, 2]]⟩ else ⟨200, [], [[3, 4]]⟩

/-- A server answering GET with a 200 carrying a `Last-Modified` and a
three-byte body split over two reads. -/
def envSingle : Env := okFsEnv fun r =>
  match r.method with
  | .get => .ok ⟨200, [("last-modified", "LM")], [[5, 6], [7]]⟩
  | .head => .error "no head expected"

/-- Like `envSingle`, but setting file times fails on every path. -/
def envSingleFT : Env := { envSingle with ftimeFail := fun _ => true }

/-!
Theorems.  First the decimal-rendering lemmas, then per-definition
behaviour and frame lemmas, then the claim theorems and their witnesses.
-/

theorem decAux_congr : ∀ f1 f2 n : Nat, n ≤ f1 → n ≤ f2 → decAux f1 n = decAux f2 n
  | 0, 0, n, _, _ => rfl
  | 0, f2 + 1, n, h1, _ => by
    have : n = 0 := by omega
    simp [this, decAux]
  | f1 + 1, 0, n, _, h2 => by
    have : n = 0 := by omega
    simp [this, decAux]
  | f1 + 1, f2 + 1, n, h1, h2 => by
    simp only [decAux]
    split
    · rfl
    · rw [decAux_congr f1 f2 (n / 10) (by omega) (by omega)]

theorem decDigits_eq (n : Nat) :
    decDigits n = if n < 10 then [n] else decDigits (n / 10) ++ [n % 10] := by
  cases n with
  | zero => simp [decDigits, decAux]
  | succ m =>
    show decAux (m + 1) (m + 1) = _
    simp only [decAux]
    split
    · rfl
    · rw [decAux_congr m ((m + 1) / 10) ((m + 1) / 10) (by omega) (le_refl _)]
      rfl

theorem digitsVal_append (xs ys : List Nat) :
    digitsVal (xs ++ ys) = ys.foldl (fun a d => 10 * a + d) (digitsVal xs) := by
  simp [digitsVal, List.foldl_append]

theorem decDigits_lt (n : Nat) : ∀ d ∈ decDigits n, d < 10 := by
  induction n using Nat.strong_induction_on with
  | _ n ih =>
    intro d hd
    rw [decDigits_eq] at hd
    split at hd
    · simp at hd; omega
    · rcases List.mem_append.mp hd with h1 | h1
      · exact ih (n / 10) (Nat.div_lt_self (by omega) (by omega)) d h1
      · simp at h1; omega

theorem digitsVal_decDigits (n : Nat) : digitsVal (decDigits n) = n := by
  induction n using Nat.strong_induction_on with
  | _ n ih =>
    rw [decDigits_eq]
    split
    · simp [digitsVal]
    · rw [digitsVal_append, ih (n / 10) (Nat.div_lt_self (by omega) (by omega))]
      simp
      omega

theorem digitChar_inj {a b : Nat} (ha : a < 10) (hb : b < 10)
    (h : digitChar a = digitChar b) : a = b := by
  interval_cases a <;> interval_cases b <;> simp_all [digitChar]

theorem map_digitChar_inj : ∀ (xs ys : List Nat), (∀ d ∈ xs, d < 10) →
    (∀ d ∈ ys, d < 10) → xs.map digitChar = ys.map digitChar → xs = ys
  | [], [], _, _, _ => rfl
  | x :: xs, y :: ys, hx, hy, h => by
    simp only [List.map_cons, List.cons.injEq] at h
    have hxy := digitChar_inj (hx x (by simp)) (hy y (by simp)) h.1
    have := map_digitChar_inj xs ys (fun d hd => hx d (by simp [hd]))
      (fun d hd => hy d (by simp [hd])) h.2
    simp [hxy, this]

theorem decimalStr_inj {m n : Nat} (h : decimalStr m = decimalStr n) : m = n := by
  have hdig : decDigits m = decDigits n := by
    have := congrArg String.data h
    simp only [decimalStr] at this
    exact map_digitChar_inj _ _ (decDigits_lt m) (decDigits_lt n) this
  calc m = digitsVal (decDigits m) := (digitsVal_decDigits m).symm
    _ = digitsVal (decDigits n) := by rw [hdig]
    _ = n := digitsVal_decDigits n

theorem decDigits_ne_nil (n : Nat) : decDigits n ≠ [] := by
  rw [decDigits_eq]
  split <;> simp

theorem decimalStr_length_pos (n : Nat) : 0 < (decimalStr n).length := by
  have := decDigits_ne_nil n
  simp only [decimalStr, String.length]
  cases h : decDigits n with
  | nil => exact absurd h this
  | cons a l => simp [h]

/-! Part-path arithmetic: the destination, its part files, and distinct
part files are pairwise distinct paths. -/

theorem dst_eq_parent_append {dst parent : Path} {fname : String}
    (hp : Path.parent dst = some parent) (hf : Path.fileName dst = some fname) :
    dst = parent ++ [fname] := by
  cases dst with
  | nil => simp [Path.parent] at hp
  | cons a l =>
    simp only [Path.parent] at hp
    simp only [Path.fileName] at hf
    have hne : a :: l ≠ [] := by simp
    rw [List.getLast?_eq_getLast_of_ne_nil hne] at hf
    have : parent = (a :: l).dropLast := by
      cases hp
      rfl
    rw [this, ← Option.some.inj hf, List.dropLast_append_getLast hne]

theorem partPath_ne_dst {dst parent : Path} {fname : String} (i : Nat)
    (hp : Path.parent dst = some parent) (hf : Path.fileName dst = some fname) :
    partPath parent fname i ≠ dst := by
  rw [dst_eq_parent_append hp hf]
  intro h
  have h2 : fname ++ ".part" ++ decimalStr i = fname :=
    List.singleton_inj.mp (List.append_cancel_left h)
  have := congrArg String.length h2
  simp only [String.length_append] at this
  have h5 : (".part" : String).length = 5 := by decide
  have := decimalStr_length_pos i
  omega

theorem partPath_inj {parent : Path} {fname : String} {i j : Nat}
    (h : partPath parent fname i = partPath parent fname j) : i = j := by
  have h2 : fname ++ ".part" ++ decimalStr i = fname ++ ".part" ++ decimalStr j :=
    List.singleton_inj.mp (List.append_cancel_left h)
  have h3 := congrArg String.data h2
  simp only [String.data_append] at h3
  have h4 := List.append_cancel_left h3
  exact decimalStr_inj (String.ext h4)

theorem W.ext {w1 w2 : W} (hfs : w1.fs = w2.fs) (hev : w1.events = w2.events)
    (hc : w1.calls = w2.calls) : w1 = w2 := by
  cases w1
  cases w2
  simp_all

/-! Projection lemmas for the world primitives. -/

@[simp] theorem emit_fs (f : Fetcher) (ev : FetchEvent) (w : W) :
    (emit f ev w).fs = w.fs := by
  unfold emit
  split <;> rfl

@[simp] theorem emit_calls (f : Fetcher) (ev : FetchEvent) (w : W) :
    (emit f ev w).calls = w.calls := by
  unfold emit
  split <;> rfl

theorem emit_events (f : Fetcher) (ev : FetchEvent) (w : W) :
    (emit f ev w).events = w.events ++ (if f.hasEvents then [ev] else []) := by
  unfold emit
  split <;> simp

@[simp] theorem write_fs (p : Path) (pos : Nat) (bytes : List Nat) (w : W) (q : Path) :
    (W.write p pos bytes w).fs q =
      if q = p then
        (w.fs p).map fun fd => { fd with content := writeAt fd.content pos bytes }
      else w.fs q := rfl

@[simp] theorem write_events (p : Path) (pos : Nat) (bytes : List Nat) (w : W) :
    (W.write p pos bytes w).events = w.events := rfl

@[simp] theorem write_calls (p : Path) (pos : Nat) (bytes : List Nat) (w : W) :
    (W.write p pos bytes w).calls = w.calls := rfl

@[simp] theorem create_fs (p : Path) (w : W) (q : Path) :
    (W.create p w).fs q = if q = p then some ⟨[], none, none⟩ else w.fs q := rfl

@[simp] theorem create_events (p : Path) (w : W) : (W.create p w).events = w.events := rfl

@[simp] theorem create_calls (p : Path) (w : W) : (W.create p w).calls = w.calls := rfl

@[simp] theorem setLen_fs (p : Path) (n : Nat) (w : W) (q : Path) :
    (W.setLen p n w).fs q =
      if q = p then (w.fs p).map fun fd => { fd with content := setLenContent fd.content n }
      else w.fs q := rfl

@[simp] theorem setLen_events (p : Path) (n : Nat) (w : W) :
    (W.setLen p n w).events = w.events := rfl

@[simp] theorem setLen_calls (p : Path) (n : Nat) (w : W) :
    (W.setLen p n w).calls = w.calls := rfl

@[simp] theorem append_fs (p : Path) (bytes : List Nat) (w : W) (q : Path) :
    (W.append p bytes w).fs q =
      if q = p then (w.fs p).map fun fd => { fd with content := fd.content ++ bytes }
      else w.fs q := rfl

@[simp] theorem append_events (p : Path) (bytes : List Nat) (w : W) :
    (W.append p bytes w).events = w.events := rfl

@[simp] theorem append_calls (p : Path) (bytes : List Nat) (w : W) :
    (W.append p bytes w).calls = w.calls := rfl

@[simp] theorem remove_fs (p : Path) (w : W) (q : Path) :
    (W.remove p w).fs q = if q = p then none else w.fs q := rfl

@[simp] theorem remove_events (p : Path) (w : W) : (W.remove p w).events = w.events := rfl

@[simp] theorem remove_calls (p : Path) (w : W) : (W.remove p w).calls = w.calls := rfl

@[simp] theorem setTimes_fs (p : Path) (t : Int) (w : W) (q : Path) :
    (W.setTimes p t w).fs q =
      if q = p then (w.fs p).map fun fd => { fd with mtime := some t, atime := some t }
      else w.fs q := rfl

@[simp] theorem setTimes_events (p : Path) (t : Int) (w : W) :
    (W.setTimes p t w).events = w.events := rfl

@[simp] theorem setTimes_calls (p : Path) (t : Int) (w : W) :
    (W.setTimes p t w).calls = w.calls := rfl

@[simp] theorem rename_fs (src dst : Path) (w : W) (q : Path) :
    (W.rename src dst w).fs q =
      if q = dst then w.fs src else if q = src then none else w.fs q := rfl

@[simp] theorem rename_events (src dst : Path) (w : W) :
    (W.rename src dst w).events = w.events := rfl

@[simp] theorem rename_calls (src dst : Path) (w : W) :
    (W.rename src dst w).calls = w.calls := rfl

theorem runBody_nil (content : List Nat) (pos : Nat) : runBody content pos [] = content := rfl

theorem runBody_cons_stop (content : List Nat) (pos : Nat) (c : List Nat)
    (rest : List (List Nat)) (hc : c.length = 0) :
    runBody content pos (c :: rest) = content := by
  conv_lhs => unfold runBody
  rw [if_pos hc]

theorem runBody_cons (content : List Nat) (pos : Nat) (c : List Nat)
    (rest : List (List Nat)) (hc : ¬c.length = 0) :
    runBody content pos (c :: rest) =
      runBody (writeAt content pos c) (pos + c.length) rest := by
  conv_lhs => unfold runBody
  rw [if_neg hc]

/-! Component lemmas for the body-read loop and `Fetcher::get`. -/

theorem readChunks_fs (f : Fetcher) (p d : Path) :
    ∀ (chunks : List (List Nat)) (pos : Nat) (w : W) (q : Path),
    (readChunks f p d chunks pos w).fs q =
      if q = p then
        (w.fs p).map fun fd => { fd with content := runBody fd.content pos chunks }
      else w.fs q
  | [], pos, w, q => by
    by_cases h : q = p
    · subst h
      simp only [readChunks, runBody_nil, if_pos rfl]
      cases w.fs q <;> rfl
    · simp [readChunks, h]
  | c :: rest, pos, w, q => by
    unfold readChunks
    by_cases hc : c.length = 0
    · rw [if_pos hc]
      by_cases h : q = p
      · subst h
        rw [if_pos rfl]
        cases hq : w.fs q with
        | none => rfl
        | some fd => simp [runBody_cons_stop _ _ _ _ hc]
      · simp [h]
    · rw [if_neg hc,
        readChunks_fs f p d rest (pos + c.length) (W.write p pos c (emit f (.Progress d c.length) w)) q]
      by_cases h : q = p
      · subst h
        rw [if_pos rfl, if_pos rfl, write_fs, if_pos rfl, emit_fs, Option.map_map]
        cases hq : w.fs q with
        | none => rfl
        | some fd => simp [Function.comp, runBody_cons _ _ _ _ hc]
      · rw [if_neg h, if_neg h, write_fs, if_neg h, emit_fs]

theorem readChunks_events (f : Fetcher) (p d : Path) :
    ∀ (chunks : List (List Nat)) (pos : Nat) (w : W),
    (readChunks f p d chunks pos w).events =
      w.events ++ (if f.hasEvents then chunkEvents d chunks else [])
  | [], pos, w => by simp [readChunks, chunkEvents]
  | c :: rest, pos, w => by
    unfold readChunks chunkEvents
    by_cases hc : c.length = 0
    · simp [hc]
    · rw [if_neg hc, if_neg hc,
        readChunks_events f p d rest (pos + c.length) (W.write p pos c (emit f (.Progress d c.length) w))]
      rw [write_events, emit_events]
      by_cases he : f.hasEvents <;> simp [he]

theorem readChunks_calls (f : Fetcher) (p d : Path) :
    ∀ (chunks : List (List Nat)) (pos : Nat) (w : W),
    (readChunks f p d chunks pos w).calls = w.calls
  | [], pos, w => rfl
  | c :: rest, pos, w => by
    unfold readChunks
    by_cases hc : c.length = 0
    · rw [if_pos hc]
    · rw [if_neg hc,
        readChunks_calls f p d rest (pos + c.length) (W.write p pos c (emit f (.Progress d c.length) w)),
        write_calls, emit_calls]

/-- `Fetcher::get` when the response validates (status < 300): returns the
written path, records `Last-Modified` if the out-parameter was empty,
writes the body into the file (over the preallocated length), emits one
`Progress` per chunk, and logs exactly one request. -/
theorem get_ok (f : Fetcher) (env : Env) (modified : Option Int) (req : Req)
    (p d : Path) (len : Option Nat) (w : W) (resp : Resp)
    (hc : env.client req = .ok resp) (hs : resp.status < 300) :
    f.get env modified req p d len w =
      ((.ok p, if modified.isNone then last_modified env resp.headers else modified),
        { w with
          fs := fun q =>
            if q = p then some ⟨fileAfterGet len resp.body, none, none⟩ else w.fs q,
          events := w.events ++ (if f.hasEvents then chunkEvents d resp.body else []),
          calls := w.calls ++ [req] }) := by
  have h304 : ¬resp.status = 304 := by omega
  unfold Fetcher.get doRequest validate
  simp only [hc, if_pos hs, if_neg h304]
  cases len with
  | none =>
    dsimp only
    congr 1
    apply W.ext
    · funext q
      rw [readChunks_fs]
      by_cases h : q = p
      · subst h
        simp [fileAfterGet, initContent]
      · simp [h]
    · rw [readChunks_events]
      rfl
    · rw [readChunks_calls]
      rfl
  | some n =>
    dsimp only
    congr 1
    apply W.ext
    · funext q
      rw [readChunks_fs]
      by_cases h : q = p
      · subst h
        simp [fileAfterGet, initContent]
      · simp [h]
    · rw [readChunks_events]
      rfl
    · rw [readChunks_calls]
      rfl

/-- `Fetcher::get` when the response has status ≥ 300 (this includes 304,
whose dedicated branch in the source is dead code): the call fails with
`Status`, but the file at `p` has already been created/truncated (and
preallocated when a length was given). -/
theorem get_err (f : Fetcher) (env : Env) (modified : Option Int) (req : Req)
    (p d : Path) (len : Option Nat) (w : W) (resp : Resp)
    (hc : env.client req = .ok resp) (hs : ¬resp.status < 300) :
    f.get env modified req p d len w =
      ((.error (.Status resp.status), modified),
        { w with
          fs := fun q =>
            if q = p then some ⟨initContent len, none, none⟩ else w.fs q,
          calls := w.calls ++ [req] }) := by
  unfold Fetcher.get doRequest validate
  simp only [hc, if_neg hs]
  cases len with
  | none =>
    dsimp only
    congr 1
  | some n =>
    dsimp only
    congr 1
    apply W.ext
    · funext q
      by_cases h : q = p <;> simp [initContent, h]
    · rfl
    · rfl

/-- C10: for every `n ≤ 1`, the builder `Fetcher::concurrent_files(n)`
stores `None`, making `from_stream` use the default bound of 4; and no
argument to this builder can produce a concurrency bound of 1, so strictly
serial multi-file processing cannot be configured through it. -/
theorem concurrent_files_no_serial (f : Fetcher) (n : Nat) (h : n ≤ 1) :
    (f.concurrentFiles n).concurrent_files = none ∧
    (f.concurrentFiles n).fromStreamLimit = 4 ∧
    ∀ m : Nat, (f.concurrentFiles m).fromStreamLimit ≠ 1 := by
  have hn : ¬n > 1 := by omega
  refine ⟨?_, ?_, ?_⟩
  · simp [Fetcher.concurrentFiles, hn]
  · simp [Fetcher.concurrentFiles, Fetcher.fromStreamLimit, hn]
  · intro m
    by_cases hm : m > 1
    · simp [Fetcher.concurrentFiles, Fetcher.fromStreamLimit, hm]
      omega
    · simp [Fetcher.concurrentFiles, Fetcher.fromStreamLimit, hm]

theorem concurrent_files_no_serial_witness :
    (fPlain.concurrentFiles 1).concurrent_files = none ∧
    (fPlain.concurrentFiles 1).fromStreamLimit = 4 ∧
    ∀ m : Nat, (fPlain.concurrentFiles m).fromStreamLimit ≠ 1 :=
  concurrent_files_no_serial fPlain 1 (by decide)

/-- C4 (counterexample): `supports_range` on a length of 100 sends the
`Range` header value `bytes=0-99` — the inclusive form of `[0, 100)` — not
the literal `bytes=0-length` value `bytes=0-100` the claim states. -/
theorem supports_range_header_counterexample :
    (supports_range env200 "u" 100 w0).2.calls =
      [⟨.head, "u", [("range", "bytes=0-99")]⟩] ∧
    "bytes=0-99" ≠ "bytes=0-100" :=
  ⟨by decide, by decide⟩

/-- C4 (amended): `supports_range` sends one HEAD request whose `Range`
header value is `bytes=0-(length-1)`, returns `true` iff the response
status is 206, `false` iff the response is otherwise below 300, and fails
with `Status(code)` for any other status of 300 or above. -/
theorem supports_range_spec (env : Env) (uri : String) (len : Nat) (w : W)
    (resp : Resp)
    (h : env.client ⟨.head, uri, [("range", rangeToString 0 len)]⟩ = .ok resp) :
    supports_range env uri len w =
      (if resp.status = 206 then .ok true
       else if resp.status < 300 then .ok false
       else .error (.Status resp.status),
       { w with calls := w.calls ++ [⟨.head, uri, [("range", rangeToString 0 len)]⟩] }) ∧
    rangeToString 0 len = "bytes=0-" ++ decimalStr (len - 1) := by
  constructor
  · simp only [supports_range, doRequest, h]
    by_cases h206 : resp.status = 206
    · simp [h206]
    · by_cases h300 : resp.status < 300 <;> simp [h206, h300, validate]
  · rfl

theorem supports_range_spec_witness :
    supports_range env200 "u" 100 w0 =
      (if (200 : Nat) = 206 then .ok true
       else if (200 : Nat) < 300 then .ok false
       else .error (.Status 200),
       { w0 with calls := w0.calls ++ [⟨.head, "u", [("range", rangeToString 0 100)]⟩] }) ∧
    rangeToString 0 100 = "bytes=0-" ++ decimalStr (100 - 1) :=
  supports_range_spec env200 "u" 100 w0 ⟨200, [], []⟩ rfl

/-- C3 (code bug): with an existing destination (content `[1,2,3]`, so its
length mismatches the advertised `Content-Length: 1024`) and a server
answering the conditional GET with `304 Not Modified`, `Fetcher::request`
does NOT return success with the file unchanged: `validate` rejects the
304 before the dead `NOT_MODIFIED` branch is reached, so the call fails
with `Status(304)` — and `File::create`, which ran before the response was
examined, has already truncated the destination to zero bytes. -/
theorem request_304_truncates :
    (fEv.request env304 ["u"] pathTX [] w304).1 = .error (.Status 304) ∧
    (fEv.request env304 ["u"] pathTX [] w304).2.fs pathTX = some ⟨[], none, none⟩ ∧
    w304.fs pathTX = some ⟨[1, 2, 3], some 5, none⟩ ∧
    (fEv.request env304 ["u"] pathTX [] w304).2.events = [] ∧
    (fEv.request env304 ["u"] pathTX [] w304).2.calls =
      [⟨.head, "u", []⟩, ⟨.get, "u", [("if-modified-since", "D5")]⟩] :=
  ⟨by decide, by decide, by decide, by decide, by decide⟩

/-- Behaviour of the freshness check when the local file matches the
server's `Content-Length` and `Last-Modified`: early success, one HEAD
issued, nothing else changed. -/
theorem freshCheck_fresh (env : Env) (u : String) (dst : Path) (w : W)
    (resp : Resp) (fd : FileData) (cl : Nat) (lm t : Int)
    (hfs : w.fs dst = some fd)
    (hclient : env.client ⟨.head, u, []⟩ = .ok resp)
    (hstatus : resp.status < 300)
    (hcl : content_length resp.headers = some cl)
    (hlm : last_modified env resp.headers = some lm)
    (hmtime : fd.mtime = some t)
    (hlen : fd.content.length = cl)
    (hts : t.toNat = (lm.emod u64Mod).toNat) :
    freshCheck env u dst w =
      (.done (.ok ()), { w with calls := w.calls ++ [⟨.head, u, []⟩] }) := by
  unfold freshCheck head doRequest validate
  simp only [hclient, hfs, Option.isSome_some, if_true, hstatus, hcl, hlm, hmtime]
  simp [hlen, hts]

/-- C1: when the destination already exists and the HEAD on the first URL
carries a `Content-Length` equal to the local length and a `Last-Modified`
whose timestamp equals the local mtime in whole seconds,
`Fetcher::request` returns success having issued exactly that one HEAD —
no GET, no event (in particular no `Progress`), and no filesystem
change. -/
theorem request_freshness_skip
    (f : Fetcher) (env : Env) (u : String) (rest : List String) (dst : Path)
    (ord : List Nat) (w : W) (resp : Resp) (fd : FileData) (cl : Nat) (lm t : Int)
    (hfs : w.fs dst = some fd)
    (hclient : env.client ⟨.head, u, []⟩ = .ok resp)
    (hstatus : resp.status < 300)
    (hcl : content_length resp.headers = some cl)
    (hlm : last_modified env resp.headers = some lm)
    (hmtime : fd.mtime = some t)
    (hlen : fd.content.length = cl)
    (hts : t.toNat = (lm.emod u64Mod).toNat) :
    f.request env (u :: rest) dst ord w =
      (.ok (), { w with calls := w.calls ++ [⟨.head, u, []⟩] }) := by
  unfold Fetcher.request
  dsimp only
  simp only [List.headD_cons]
  rw [freshCheck_fresh env u dst w resp fd cl lm t hfs hclient hstatus hcl hlm hmtime
    hlen hts]

/-- Behaviour of the freshness check when the server reports both headers
but the local file mismatches: fall through with the local mtime recorded
as the `If-Modified-Since` candidate and the expected length remembered. -/
theorem freshCheck_mismatch (env : Env) (u : String) (dst : Path) (w : W)
    (resp : Resp) (fd : FileData) (cl : Nat) (lm t : Int)
    (hfs : w.fs dst = some fd)
    (hclient : env.client ⟨.head, u, []⟩ = .ok resp)
    (hstatus : resp.status < 300)
    (hcl : content_length resp.headers = some cl)
    (hlm : last_modified env resp.headers = some lm)
    (hmtime : fd.mtime = some t)
    (hmm : ¬(fd.content.length = cl ∧ t.toNat = (lm.emod u64Mod).toNat)) :
    freshCheck env u dst w =
      (.cont (some lm) (some cl) (some (env.rfc2822 t.toNat)),
        { w with calls := w.calls ++ [⟨.head, u, []⟩] }) := by
  unfold freshCheck head doRequest validate
  simp only [hclient, hfs, Option.isSome_some, if_true, hstatus, hcl, hlm, hmtime]
  simp [hmm]

/-- The range-parallel block is skipped entirely when
`connections_per_file` is not configured. -/
theorem segPhase_none (f : Fetcher) (env : Env) (u : String) (uris : List String)
    (dst : Path) (ord : List Nat) (m : Option Int) (l : Option Nat) (w : W)
    (hconn : f.connections_per_file = none) :
    f.segPhase env u uris dst ord m l w = (.cont m, w) := by
  unfold Fetcher.segPhase
  rw [hconn]

/-- C5: when the freshness check recorded an `If-Modified-Since` candidate
and the conditional GET is answered `501 Not Implemented`, the engine
retries exactly once against the same URL without the header; the call log
shows exactly the HEAD, the conditional GET and the unconditional GET, and
any error status of the retry (including a second 501) is propagated as
`Status`. -/
theorem request_retry_501
    (f : Fetcher) (env : Env) (u : String) (rest : List String) (dst : Path)
    (ord : List Nat) (w : W) (respH : Resp) (hdrs1 : List (String × String))
    (body1 : List (List Nat)) (resp2 : Resp) (fd : FileData)
    (cl : Nat) (lm t : Int)
    (hconn : f.connections_per_file = none)
    (hfs : w.fs dst = some fd)
    (hclientH : env.client ⟨.head, u, []⟩ = .ok respH)
    (hstatusH : respH.status < 300)
    (hcl : content_length respH.headers = some cl)
    (hlm : last_modified env respH.headers = some lm)
    (hmtime : fd.mtime = some t)
    (hmm : ¬(fd.content.length = cl ∧ t.toNat = (lm.emod u64Mod).toNat))
    (hclient1 : env.client ⟨.get, u, [("if-modified-since", env.rfc2822 t.toNat)]⟩ =
      .ok ⟨501, hdrs1, body1⟩)
    (hclient2 : env.client ⟨.get, u, []⟩ = .ok resp2)
    (hstatus2 : 300 ≤ resp2.status) :
    (f.request env (u :: rest) dst ord w).1 = .error (.Status resp2.status) ∧
    (f.request env (u :: rest) dst ord w).2.calls =
      w.calls ++ [⟨.head, u, []⟩,
        ⟨.get, u, [("if-modified-since", env.rfc2822 t.toNat)]⟩, ⟨.get, u, []⟩] := by
  have h1 : ¬(Resp.mk 501 hdrs1 body1).status < 300 := by
    simp
  have h2 : ¬resp2.status < 300 := by omega
  unfold Fetcher.request
  dsimp only
  simp only [List.headD_cons]
  rw [freshCheck_mismatch env u dst w respH fd cl lm t hfs hclientH hstatusH hcl hlm
    hmtime hmm]
  dsimp only
  rw [segPhase_none f env u (u :: rest) dst ord (some lm) (some cl) _ hconn]
  dsimp only
  unfold Fetcher.singleStream
  dsimp only
  rw [get_err f env (some lm) _ dst dst none _ _ hclient1 h1]
  dsimp only
  rw [get_err f env (some lm) _ dst dst none _ _ hclient2 h2]
  dsimp only
  constructor
  · rfl
  · simp

theorem request_retry_501_witness :
    (fPlain.request env501 ["u"] pathTX [] w304).1 = .error (.Status 501) ∧
    (fPlain.request env501 ["u"] pathTX [] w304).2.calls =
      w304.calls ++ [⟨.head, "u", []⟩,
        ⟨.get, "u", [("if-modified-since", "D5")]⟩, ⟨.get, "u", []⟩] :=
  request_retry_501 fPlain env501 "u" [] pathTX [] w304
    ⟨200, [("content-length", "1024"), ("last-modified", "LM")], []⟩
    [] [] ⟨501, [("x", "y")], []⟩ ⟨[1, 2, 3], some 5, none⟩ 1024 1445412480 5
    rfl rfl rfl (by decide) rfl rfl rfl (by decide) rfl rfl (by decide)

theorem request_freshness_skip_witness :
    fEv.request envFresh ["u"] pathTX [] wFresh =
      (.ok (), { wFresh with calls := wFresh.calls ++ [⟨.head, "u", []⟩] }) :=
  request_freshness_skip fEv envFresh "u" [] pathTX [] wFresh
    ⟨200, [("content-length", "3"), ("last-modified", "LM")], []⟩
    ⟨[7, 8, 9], some 1445412480, none⟩ 3 1445412480 1445412480
    rfl rfl (by decide) rfl rfl rfl rfl (by decide)

/-! Counting terminal events, and frame lemmas for `Fetcher::get`. -/

theorem countFetched_nil (d : Path) : countFetched d [] = 0 := rfl

theorem countFetched_append (d : Path) (a b : List FetchEvent) :
    countFetched d (a ++ b) = countFetched d a + countFetched d b := by
  simp [countFetched, List.filter_append]

theorem countFetched_chunkEvents (d dest : Path) :
    ∀ chunks : List (List Nat), countFetched d (chunkEvents dest chunks) = 0
  | [] => rfl
  | c :: rest => by
    unfold chunkEvents
    split
    · rfl
    · simp only [countFetched, List.filter_cons]
      exact countFetched_chunkEvents d dest rest

theorem countFetched_if_list (d : Path) (b : Bool) (evs : List FetchEvent)
    (h : countFetched d evs = 0) :
    countFetched d (if b then evs else []) = 0 := by
  cases b <;> simp [h, countFetched_nil]

theorem countFetched_progress (d p : Path) (n : Nat) :
    countFetched d [FetchEvent.Progress p n] = 0 := rfl

theorem countFetched_fetching (d p : Path) :
    countFetched d [FetchEvent.Fetching p] = 0 := rfl

theorem countFetched_partFetching (d p : Path) (i : Nat) :
    countFetched d [FetchEvent.PartFetching p i] = 0 := rfl

theorem countFetched_partFetched (d p : Path) (i : Nat) :
    countFetched d [FetchEvent.PartFetched p i] = 0 := rfl

theorem countFetched_contentLength (d p : Path) (n : Nat) :
    countFetched d [FetchEvent.ContentLength p n] = 0 := rfl

theorem countFetched_fetched (d p : Path) (r : Except Error Unit) :
    countFetched d [FetchEvent.Fetched p r] = if p = d then 1 else 0 := by
  by_cases hpd : p = d <;> simp [countFetched, hpd]

theorem emit_countFetched (d : Path) (f : Fetcher) (ev : FetchEvent) (w : W)
    (h : countFetched d [ev] = 0) :
    countFetched d (emit f ev w).events = countFetched d w.events := by
  rw [emit_events, countFetched_append, countFetched_if_list d _ _ h, Nat.add_zero]

/-- `Fetcher::get` never touches any path other than the one it writes. -/
theorem get_fs_ne (f : Fetcher) (env : Env) (modified : Option Int) (req : Req)
    (p d : Path) (len : Option Nat) (w : W) (q : Path) (h : q ≠ p) :
    (f.get env modified req p d len w).2.fs q = w.fs q := by
  unfold Fetcher.get doRequest
  dsimp only
  cases env.client req with
  | error e => cases len <;> simp [h]
  | ok resp =>
    dsimp only
    cases validate resp with
    | error e => cases len <;> simp [h]
    | ok resp2 =>
      dsimp only
      split
      · cases len <;> simp [h]
      · rw [readChunks_fs]
        cases len <;> simp [h]

/-- `Fetcher::get` logs exactly one request, whatever happens. -/
theorem get_calls (f : Fetcher) (env : Env) (modified : Option Int) (req : Req)
    (p d : Path) (len : Option Nat) (w : W) :
    (f.get env modified req p d len w).2.calls = w.calls ++ [req] := by
  unfold Fetcher.get doRequest
  dsimp only
  cases env.client req with
  | error e => cases len <;> simp
  | ok resp =>
    dsimp only
    cases validate resp with
    | error e => cases len <;> simp
    | ok resp2 =>
      dsimp only
      split
      · cases len <;> simp
      · rw [readChunks_calls]
        cases len <;> simp

/-- `Fetcher::get` emits no terminal `Fetched` event. -/
theorem get_countFetched (dT : Path) (f : Fetcher) (env : Env)
    (modified : Option Int) (req : Req) (p d : Path) (len : Option Nat) (w : W) :
    countFetched dT (f.get env modified req p d len w).2.events =
      countFetched dT w.events := by
  unfold Fetcher.get doRequest
  dsimp only
  cases env.client req with
  | error e => cases len <;> rfl
  | ok resp =>
    dsimp only
    cases validate resp with
    | error e => cases len <;> rfl
    | ok resp2 =>
      dsimp only
      split
      · cases len <;> rfl
      · rw [readChunks_events, countFetched_append,
          countFetched_if_list dT _ _ (countFetched_chunkEvents dT d resp2.body)]
        cases len <;> rfl

/-! Lemmas about one part future and about running them in schedule
order. -/

theorem partFetch_ok (f : Fetcher) (env : Env) (length tasks : Nat)
    (uris : List String) (dst parent : Path) (fname : String)
    (modified : Option Int) (task : Nat) (w : W) (resp : Resp)
    (hc : env.client (partReq length tasks uris task) = .ok resp)
    (hs : resp.status < 300) :
    (f.partFetch env length tasks uris dst parent fname modified task w).1 =
      .ok (partPath parent fname task) ∧
    (∀ q, (f.partFetch env length tasks uris dst parent fname modified task w).2.fs q =
      if q = partPath parent fname task then
        some ⟨fileAfterGet (some (expectedLen length tasks task)) resp.body, none, none⟩
      else w.fs q) ∧
    (f.partFetch env length tasks uris dst parent fname modified task w).2.calls =
      w.calls ++ [partReq length tasks uris task] := by
  unfold Fetcher.partFetch
  dsimp only
  rw [get_ok f env modified (partReq length tasks uris task) (partPath parent fname task)
    dst (some (expectedLen length tasks task)) (emit f (.PartFetching dst task) w) resp hc hs]
  dsimp only
  refine ⟨rfl, ?_, ?_⟩
  · intro q
    by_cases h : q = partPath parent fname task <;> simp [h]
  · simp

theorem partFetch_fs_ne (f : Fetcher) (env : Env) (length tasks : Nat)
    (uris : List String) (dst parent : Path) (fname : String)
    (modified : Option Int) (task : Nat) (w : W) (q : Path)
    (h : q ≠ partPath parent fname task) :
    (f.partFetch env length tasks uris dst parent fname modified task w).2.fs q =
      w.fs q := by
  unfold Fetcher.partFetch
  dsimp only
  rcases hg : f.get env modified (partReq length tasks uris task)
      (partPath parent fname task) dst (some (expectedLen length tasks task))
      (emit f (.PartFetching dst task) w) with ⟨⟨r, m⟩, w2⟩
  dsimp only
  have h1 := get_fs_ne f env modified (partReq length tasks uris task)
    (partPath parent fname task) dst (some (expectedLen length tasks task))
    (emit f (.PartFetching dst task) w) q h
  rw [hg] at h1
  simp only [emit_fs] at h1 ⊢
  exact h1

theorem partFetch_countFetched (dT : Path) (f : Fetcher) (env : Env)
    (length tasks : Nat) (uris : List String) (dst parent : Path) (fname : String)
    (modified : Option Int) (task : Nat) (w : W) :
    countFetched dT
        (f.partFetch env length tasks uris dst parent fname modified task w).2.events =
      countFetched dT w.events := by
  unfold Fetcher.partFetch
  dsimp only
  rcases hg : f.get env modified (partReq length tasks uris task)
      (partPath parent fname task) dst (some (expectedLen length tasks task))
      (emit f (.PartFetching dst task) w) with ⟨⟨r, m⟩, w2⟩
  dsimp only
  have h1 := get_countFetched dT f env modified (partReq length tasks uris task)
    (partPath parent fname task) dst (some (expectedLen length tasks task))
    (emit f (.PartFetching dst task) w)
  rw [hg] at h1
  dsimp only at h1
  rw [emit_countFetched dT f _ _ (countFetched_partFetched dT dst task), h1,
    emit_countFetched dT f _ _ (countFetched_partFetching dT dst task)]

theorem runParts_fs_ne (f : Fetcher) (env : Env) (length tasks : Nat)
    (uris : List String) (dst parent : Path) (fname : String)
    (modified : Option Int) : ∀ (ord : List Nat) (w : W) (q : Path),
    (∀ i ∈ ord, q ≠ partPath parent fname i) →
    (f.runParts env length tasks uris dst parent fname modified ord w).2.fs q = w.fs q
  | [], _, _, _ => rfl
  | i :: rest, w, q, h => by
    unfold Fetcher.runParts
    rcases hp : f.partFetch env length tasks uris dst parent fname modified i w
      with ⟨r, w1⟩
    rcases hr : f.runParts env length tasks uris dst parent fname modified rest w1
      with ⟨rs, w2⟩
    dsimp only
    rw [hr]
    dsimp only
    have h2 := runParts_fs_ne f env length tasks uris dst parent fname modified rest w1 q
      (fun j hj => h j (List.mem_cons_of_mem i hj))
    rw [hr] at h2
    dsimp only at h2
    have h1 := partFetch_fs_ne f env length tasks uris dst parent fname modified i w q
      (h i (List.mem_cons_self _ _))
    rw [hp] at h1
    dsimp only at h1
    exact h2.trans h1

theorem runParts_fs_mem (f : Fetcher) (env : Env) (length tasks : Nat)
    (uris : List String) (dst parent : Path) (fname : String)
    (modified : Option Int) (resp : Nat → Resp) :
    ∀ (ord : List Nat) (w : W),
    (∀ j ∈ ord, env.client (partReq length tasks uris j) = .ok (resp j) ∧
      (resp j).status < 300) →
    ∀ i ∈ ord,
    (f.runParts env length tasks uris dst parent fname modified ord w).2.fs
        (partPath parent fname i) =
      some ⟨fileAfterGet (some (expectedLen length tasks i)) ((resp i).body),
        none, none⟩
  | [], _, _, i, hi => absurd hi (List.not_mem_nil i)
  | j :: rest, w, hresp, i, hi => by
    unfold Fetcher.runParts
    rcases hp : f.partFetch env length tasks uris dst parent fname modified j w
      with ⟨r, w1⟩
    rcases hr : f.runParts env length tasks uris dst parent fname modified rest w1
      with ⟨rs, w2⟩
    dsimp only
    rw [hr]
    dsimp only
    by_cases hmem : i ∈ rest
    · have h2 := runParts_fs_mem f env length tasks uris dst parent fname modified resp
        rest w1 (fun k hk => hresp k (List.mem_cons_of_mem j hk)) i hmem
      rw [hr] at h2
      dsimp only at h2
      exact h2
    · have hij : i = j := by
        rcases List.mem_cons.mp hi with h1 | h1
        · exact h1
        · exact absurd h1 hmem
      subst hij
      have h2 := runParts_fs_ne f env length tasks uris dst parent fname modified rest w1
        (partPath parent fname i)
        (fun k hk => fun hcontra => hmem (by rw [partPath_inj hcontra]; exact hk))
      rw [hr] at h2
      dsimp only at h2
      have h1 := (partFetch_ok f env length tasks uris dst parent fname modified i w
        (resp i) (hresp i (List.mem_cons_self _ _)).1 (hresp i (List.mem_cons_self _ _)).2).2.1
        (partPath parent fname i)
      rw [hp] at h1
      dsimp only at h1
      rw [if_pos rfl] at h1
      exact h2.trans h1

theorem runParts_results (f : Fetcher) (env : Env) (length tasks : Nat)
    (uris : List String) (dst parent : Path) (fname : String)
    (modified : Option Int) (resp : Nat → Resp) :
    ∀ (ord : List Nat) (w : W),
    (∀ j ∈ ord, env.client (partReq length tasks uris j) = .ok (resp j) ∧
      (resp j).status < 300) →
    (f.runParts env length tasks uris dst parent fname modified ord w).1 =
      ord.map fun i => (i, .ok (partPath parent fname i))
  | [], _, _ => rfl
  | j :: rest, w, hresp => by
    unfold Fetcher.runParts
    rcases hp : f.partFetch env length tasks uris dst parent fname modified j w
      with ⟨r, w1⟩
    rcases hr : f.runParts env length tasks uris dst parent fname modified rest w1
      with ⟨rs, w2⟩
    dsimp only
    rw [hr]
    dsimp only
    have h1 := (partFetch_ok f env length tasks uris dst parent fname modified j w
      (resp j) (hresp j (List.mem_cons_self _ _)).1 (hresp j (List.mem_cons_self _ _)).2).1
    rw [hp] at h1
    dsimp only at h1
    have h2 := runParts_results f env length tasks uris dst parent fname modified resp
      rest w1 (fun k hk => hresp k (List.mem_cons_of_mem j hk))
    rw [hr] at h2
    dsimp only at h2
    rw [List.map_cons, h1, h2]

theorem runParts_countFetched (dT : Path) (f : Fetcher) (env : Env)
    (length tasks : Nat) (uris : List String) (dst parent : Path) (fname : String)
    (modified : Option Int) : ∀ (ord : List Nat) (w : W),
    countFetched dT
        (f.runParts env length tasks uris dst parent fname modified ord w).2.events =
      countFetched dT w.events
  | [], _ => rfl
  | j :: rest, w => by
    unfold Fetcher.runParts
    rcases hp : f.partFetch env length tasks uris dst parent fname modified j w
      with ⟨r, w1⟩
    rcases hr : f.runParts env length tasks uris dst parent fname modified rest w1
      with ⟨rs, w2⟩
    dsimp only
    rw [hr]
    dsimp only
    have h2 := runParts_countFetched dT f env length tasks uris dst parent fname modified
      rest w1
    rw [hr] at h2
    dsimp only at h2
    have h1 := partFetch_countFetched dT f env length tasks uris dst parent fname
      modified j w
    rw [hp] at h1
    dsimp only at h1
    exact h2.trans h1

theorem lookup_map_self (g : Nat → Except Error Path) :
    ∀ (ord : List Nat) (i : Nat), i ∈ ord →
    (ord.map fun j => (j, g j)).lookup i = some (g i)
  | j :: rest, i, h => by
    simp only [List.map_cons, List.lookup]
    by_cases hij : i = j
    · simp [hij]
    · have hmem : i ∈ rest := by
        rcases List.mem_cons.mp h with h1 | h1
        · exact absurd h1 hij
        · exact h1
      have hbeq : (i == j) = false := by simp [hij]
      rw [hbeq, lookup_map_self g rest i hmem]

/-- The assembly loop, fed a result table that maps every index of `is` to
its completed part file: it succeeds, appends the part contents to the
destination in list order, best-effort deletes each part file after its
append, touches nothing else, and emits no event and no request. -/
theorem assembleLoop_spec (env : Env) (dst parent : Path) (fname : String)
    (results : List (Nat × Except Error Path)) (c : Nat → List Nat) :
    ∀ (is : List Nat) (w : W) (acc : List Nat) (mt at_ : Option Int),
    is.Nodup →
    (∀ i ∈ is, results.lookup i = some (.ok (partPath parent fname i))) →
    (∀ i ∈ is, ∃ m a, w.fs (partPath parent fname i) = some ⟨c i, m, a⟩) →
    (∀ i ∈ is, partPath parent fname i ≠ dst) →
    w.fs dst = some ⟨acc, mt, at_⟩ →
    (assembleLoop env dst results is w).1 = .ok () ∧
    (assembleLoop env dst results is w).2.fs dst =
      some ⟨acc ++ (is.map c).flatten, mt, at_⟩ ∧
    (∀ i ∈ is, env.removeFail (partPath parent fname i) = false →
      (assembleLoop env dst results is w).2.fs (partPath parent fname i) = none) ∧
    (∀ q, q ≠ dst → (∀ i ∈ is, q ≠ partPath parent fname i) →
      (assembleLoop env dst results is w).2.fs q = w.fs q) ∧
    (assembleLoop env dst results is w).2.events = w.events ∧
    (assembleLoop env dst results is w).2.calls = w.calls
  | [], w, acc, mt, at_, _, _, _, _, hdst => by
    refine ⟨rfl, ?_, ?_, fun q _ _ => rfl, rfl, rfl⟩
    · simp [assembleLoop, hdst]
    · intro i hi
      exact absurd hi (List.not_mem_nil i)
  | i :: rest, w, acc, mt, at_, hnodup, hlook, hparts, hne, hdst => by
    have hi0 : i ∈ i :: rest := List.mem_cons_self _ _
    have hinotin : i ∉ rest := (List.nodup_cons.mp hnodup).1
    have hrest_nodup : rest.Nodup := (List.nodup_cons.mp hnodup).2
    obtain ⟨m, a, hfd⟩ := hparts i hi0
    unfold assembleLoop concatenate
    rw [hlook i hi0]
    dsimp only [Option.getD]
    rw [hfd]
    dsimp only
    have hppne : ∀ j ∈ rest, partPath parent fname i ≠ partPath parent fname j := by
      intro j hj hcontra
      exact hinotin (by rw [partPath_inj hcontra]; exact hj)
    have hW2 :
        ∀ q, (if env.removeFail (partPath parent fname i) = true
            then W.append dst (c i) w
            else W.remove (partPath parent fname i) (W.append dst (c i) w)).fs q =
          if q = partPath parent fname i ∧
              env.removeFail (partPath parent fname i) = false then none
          else if q = dst then some ⟨acc ++ c i, mt, at_⟩
          else w.fs q := by
      intro q
      by_cases hrf : env.removeFail (partPath parent fname i) = true <;>
        by_cases hq : q = partPath parent fname i <;>
        by_cases hqd : q = dst <;>
        simp_all [W.append, W.remove, hdst]
    set w2 := if env.removeFail (partPath parent fname i) = true
      then W.append dst (c i) w
      else W.remove (partPath parent fname i) (W.append dst (c i) w) with hw2def
    have hdst2 : w2.fs dst = some ⟨acc ++ c i, mt, at_⟩ := by
      rw [hW2 dst]
      rw [if_neg, if_pos rfl]
      intro hcontra
      exact (hne i hi0) hcontra.1.symm
    have hparts2 : ∀ j ∈ rest, ∃ m2 a2,
        w2.fs (partPath parent fname j) = some ⟨c j, m2, a2⟩ := by
      intro j hj
      obtain ⟨m2, a2, hf2⟩ := hparts j (List.mem_cons_of_mem i hj)
      refine ⟨m2, a2, ?_⟩
      rw [hW2]
      rw [if_neg, if_neg, hf2]
      · exact fun hcontra => (hne j (List.mem_cons_of_mem i hj)) hcontra
      · intro hcontra
        exact (hppne j hj) hcontra.1.symm
    have IH := assembleLoop_spec env dst parent fname results c rest w2 (acc ++ c i)
      mt at_ hrest_nodup
      (fun j hj => hlook j (List.mem_cons_of_mem i hj)) hparts2
      (fun j hj => hne j (List.mem_cons_of_mem i hj)) hdst2
    have hEvents2 : w2.events = w.events := by
      rw [hw2def]
      split <;> rfl
    have hCalls2 : w2.calls = w.calls := by
      rw [hw2def]
      split <;> rfl
    refine ⟨IH.1, ?_, ?_, ?_, ?_, ?_⟩
    · rw [IH.2.1, List.map_cons, List.flatten_cons, List.append_assoc]
    · intro j hj hrfj
      rcases List.mem_cons.mp hj with hji | hjr
      · subst hji
        rw [IH.2.2.2.1 (partPath parent fname j) (hne j hi0) hppne, hW2]
        rw [if_pos ⟨rfl, hrfj⟩]
      · exact IH.2.2.1 j hjr hrfj
    · intro q hqd hqp
      rw [IH.2.2.2.1 q hqd (fun j hj => hqp j (List.mem_cons_of_mem i hj)), hW2]
      rw [if_neg, if_neg hqd]
      intro hcontra
      exact (hqp i hi0) hcontra.1
    · rw [IH.2.2.2.2.1, hEvents2]
    · rw [IH.2.2.2.2.2, hCalls2]

/-! Generic frame and event lemmas, independent of server behaviour. -/

theorem lookup_mem {α : Type} : ∀ (l : List (Nat × α)) (i : Nat) (v : α),
    l.lookup i = some v → (i, v) ∈ l
  | [], i, v, h => by simp [List.lookup] at h
  | (k, v0) :: rest, i, v, h => by
    simp only [List.lookup] at h
    by_cases hik : i = k
    · subst hik
      rw [beq_self_eq_true] at h
      dsimp only at h
      cases h
      exact List.mem_cons_self _ _
    · have hbeq : (i == k) = false := by simp [hik]
      rw [hbeq] at h
      exact List.mem_cons_of_mem _ (lookup_mem rest i v h)

theorem get_result_shape (f : Fetcher) (env : Env) (modified : Option Int)
    (req : Req) (p d : Path) (len : Option Nat) (w : W) :
    (f.get env modified req p d len w).1.1 = .ok p ∨
      ∃ e, (f.get env modified req p d len w).1.1 = .error e := by
  unfold Fetcher.get doRequest
  dsimp only
  cases env.client req with
  | error e => exact Or.inr ⟨.Client e, rfl⟩
  | ok resp =>
    dsimp only
    cases validate resp with
    | error e => exact Or.inr ⟨e, rfl⟩
    | ok resp2 =>
      dsimp only
      split
      · exact Or.inl rfl
      · exact Or.inl rfl

theorem partFetch_result_shape (f : Fetcher) (env : Env) (length tasks : Nat)
    (uris : List String) (dst parent : Path) (fname : String)
    (modified : Option Int) (task : Nat) (w : W) :
    ∀ pp, (f.partFetch env length tasks uris dst parent fname modified task w).1 =
      .ok pp → pp = partPath parent fname task := by
  intro pp h
  unfold Fetcher.partFetch at h
  dsimp only at h
  rcases hg : f.get env modified (partReq length tasks uris task)
      (partPath parent fname task) dst (some (expectedLen length tasks task))
      (emit f (.PartFetching dst task) w) with ⟨⟨r, mo⟩, w2⟩
  rw [hg] at h
  dsimp only at h
  rcases get_result_shape f env modified (partReq length tasks uris task)
      (partPath parent fname task) dst (some (expectedLen length tasks task))
      (emit f (.PartFetching dst task) w) with hok | ⟨e, herr⟩
  · rw [hg] at hok
    try dsimp only at hok
    rw [hok] at h
    cases h
    rfl
  · rw [hg] at herr
    dsimp only at herr
    rw [herr] at h
    cases h

theorem runParts_results_shape (f : Fetcher) (env : Env) (length tasks : Nat)
    (uris : List String) (dst parent : Path) (fname : String)
    (modified : Option Int) : ∀ (ord : List Nat) (w : W) (pr : Nat × Except Error Path),
    pr ∈ (f.runParts env length tasks uris dst parent fname modified ord w).1 →
    ∀ pp, pr.2 = .ok pp → pp = partPath parent fname pr.1
  | [], w, pr, hmem => absurd hmem (List.not_mem_nil pr)
  | i :: rest, w, pr, hmem => by
    intro pp hpp
    unfold Fetcher.runParts at hmem
    rcases hp : f.partFetch env length tasks uris dst parent fname modified i w
      with ⟨r, w1⟩
    rw [hp] at hmem
    dsimp only at hmem
    rcases hr : f.runParts env length tasks uris dst parent fname modified rest w1
      with ⟨rs, w2⟩
    rw [hr] at hmem
    dsimp only at hmem
    rcases List.mem_cons.mp hmem with h1 | h1
    · subst h1
      dsimp only at hpp
      have := partFetch_result_shape f env length tasks uris dst parent fname modified
        i w pp
      rw [hp] at this
      exact this hpp
    · have := runParts_results_shape f env length tasks uris dst parent fname modified
        rest w1 pr
      rw [hr] at this
      exact this h1 pp hpp

theorem assembleLoop_events (env : Env) (dst : Path)
    (results : List (Nat × Except Error Path)) : ∀ (is : List Nat) (w : W),
    (assembleLoop env dst results is w).2.events = w.events
  | [], _ => rfl
  | i :: rest, w => by
    unfold assembleLoop concatenate
    cases (results.lookup i).getD (.error (.Client "part not scheduled")) with
    | error e => rfl
    | ok pp =>
      dsimp only
      cases w.fs pp with
      | none => rfl
      | some fd =>
        dsimp only
        rw [assembleLoop_events env dst results rest]
        split <;> rfl

theorem assembleLoop_calls (env : Env) (dst : Path)
    (results : List (Nat × Except Error Path)) : ∀ (is : List Nat) (w : W),
    (assembleLoop env dst results is w).2.calls = w.calls
  | [], _ => rfl
  | i :: rest, w => by
    unfold assembleLoop concatenate
    cases (results.lookup i).getD (.error (.Client "part not scheduled")) with
    | error e => rfl
    | ok pp =>
      dsimp only
      cases w.fs pp with
      | none => rfl
      | some fd =>
        dsimp only
        rw [assembleLoop_calls env dst results rest]
        split <;> rfl

theorem assembleLoop_fs_ne (env : Env) (dst parent : Path) (fname : String)
    (results : List (Nat × Except Error Path))
    (hres : ∀ pr ∈ results, ∀ pp, pr.2 = .ok pp → pp = partPath parent fname pr.1) :
    ∀ (is : List Nat) (w : W) (q : Path), q ≠ dst →
    (∀ i, q ≠ partPath parent fname i) →
    (assembleLoop env dst results is w).2.fs q = w.fs q
  | [], _, _, _, _ => rfl
  | i :: rest, w, q, hqd, hqp => by
    unfold assembleLoop concatenate
    cases hlk : (results.lookup i).getD (.error (.Client "part not scheduled")) with
    | error e => rfl
    | ok pp =>
      dsimp only
      cases hfp : w.fs pp with
      | none => rfl
      | some fd =>
        dsimp only
        have hpp : pp = partPath parent fname i := by
          cases hl : results.lookup i with
          | none =>
            rw [hl] at hlk
            simp [Option.getD] at hlk
          | some r =>
            rw [hl] at hlk
            simp only [Option.getD] at hlk
            subst hlk
            exact hres (i, .ok pp) (lookup_mem results i (.ok pp) hl) pp rfl
        rw [assembleLoop_fs_ne env dst parent fname results hres rest _ q hqd hqp]
        split <;> simp [hqd, hpp ▸ hqp i]

@[simp] theorem applyModified_events (env : Env) (m : Option Int) (p : Path) (w : W) :
    (applyModified env m p w).2.events = w.events := by
  unfold applyModified
  cases m with
  | none => rfl
  | some t =>
    dsimp only
    split <;> rfl

@[simp] theorem applyModified_calls (env : Env) (m : Option Int) (p : Path) (w : W) :
    (applyModified env m p w).2.calls = w.calls := by
  unfold applyModified
  cases m with
  | none => rfl
  | some t =>
    dsimp only
    split <;> rfl

theorem applyModified_fs_ne (env : Env) (m : Option Int) (p : Path) (w : W)
    (q : Path) (h : q ≠ p) : (applyModified env m p w).2.fs q = w.fs q := by
  unfold applyModified
  cases m with
  | none => rfl
  | some t =>
    dsimp only
    split
    · rfl
    · simp [h]

theorem get_many_fs_ne (f : Fetcher) (env : Env) (length tasks : Nat)
    (uris : List String) (dst : Path) (modified : Option Int) (ord : List Nat)
    (w : W) (q : Path) (h : ¬inFootprint dst q) :
    (f.get_many env length tasks uris dst modified ord w).2.fs q = w.fs q := by
  have hqd : q ≠ dst := fun hc => h (Or.inl hc)
  unfold Fetcher.get_many
  cases hp : Path.parent dst with
  | none => rfl
  | some parent =>
    dsimp only
    cases hf : Path.fileName dst with
    | none => rfl
    | some fname =>
      dsimp only
      have hqp : ∀ i, q ≠ partPath parent fname i := fun i hc =>
        h (Or.inr ⟨parent, fname, i, hp, hf, hc⟩)
      rcases hrun : f.runParts env length tasks uris dst parent fname modified ord
        (W.create dst w) with ⟨results, w2⟩
      dsimp only
      have hshape := runParts_results_shape f env length tasks uris dst parent fname
        modified ord (W.create dst w)
      rw [hrun] at hshape
      rcases hasm : assembleLoop env dst results (List.range tasks) w2 with ⟨ares, w3⟩
      have hfs3 := assembleLoop_fs_ne env dst parent fname results
        (fun pr hpr => hshape pr hpr) (List.range tasks) w2 q hqd hqp
      rw [hasm] at hfs3
      dsimp only at hfs3
      have hfs2 := runParts_fs_ne f env length tasks uris dst parent fname modified ord
        (W.create dst w) q (fun i _ => hqp i)
      rw [hrun] at hfs2
      dsimp only at hfs2
      cases ares with
      | error e =>
        dsimp only
        rw [hfs3, hfs2]
        simp [hqd]
      | ok u =>
        dsimp only
        rw [applyModified_fs_ne env modified dst w3 q hqd, hfs3, hfs2]
        simp [hqd]

theorem get_many_countFetched (dT : Path) (f : Fetcher) (env : Env)
    (length tasks : Nat) (uris : List String) (dst : Path) (modified : Option Int)
    (ord : List Nat) (w : W) :
    countFetched dT (f.get_many env length tasks uris dst modified ord w).2.events =
      countFetched dT w.events := by
  unfold Fetcher.get_many
  cases hp : Path.parent dst with
  | none => rfl
  | some parent =>
    dsimp only
    cases hf : Path.fileName dst with
    | none => rfl
    | some fname =>
      dsimp only
      rcases hrun : f.runParts env length tasks uris dst parent fname modified ord
        (W.create dst w) with ⟨results, w2⟩
      dsimp only
      have hev2 := runParts_countFetched dT f env length tasks uris dst parent fname
        modified ord (W.create dst w)
      rw [hrun] at hev2
      dsimp only at hev2
      rcases hasm : assembleLoop env dst results (List.range tasks) w2 with ⟨ares, w3⟩
      have hev3 := assembleLoop_events env dst results (List.range tasks) w2
      rw [hasm] at hev3
      dsimp only at hev3
      cases ares with
      | error e =>
        dsimp only
        rw [hev3, hev2]
        rfl
      | ok u =>
        dsimp only
        rw [applyModified_events, hev3, hev2]
        rfl

/-- The success path of `Fetcher::get_many`: when every part GET is
answered successfully and setting the file times succeeds, the call
returns `Ok`, the destination holds the concatenation of the part file
contents in ascending part order — for every completion schedule that is
a permutation of the part indices — with both timestamps set to the
`modified` hint, and every part file whose removal succeeds is gone. -/
theorem get_many_spec (f : Fetcher) (env : Env) (length tasks : Nat)
    (uris : List String) (dst parent : Path) (fname : String)
    (modified : Option Int) (ord : List Nat) (w : W) (resp : Nat → Resp)
    (hp : Path.parent dst = some parent)
    (hf : Path.fileName dst = some fname)
    (hperm : ord.Perm (List.range tasks))
    (hresp : ∀ i, i < tasks →
      env.client (partReq length tasks uris i) = .ok (resp i) ∧ (resp i).status < 300)
    (hft : env.ftimeFail dst = false) :
    (f.get_many env length tasks uris dst modified ord w).1 = .ok () ∧
    (f.get_many env length tasks uris dst modified ord w).2.fs dst =
      some ⟨((List.range tasks).map fun i =>
          fileAfterGet (some (expectedLen length tasks i)) ((resp i).body)).flatten,
        modified, modified⟩ ∧
    (∀ i, i < tasks → env.removeFail (partPath parent fname i) = false →
      (f.get_many env length tasks uris dst modified ord w).2.fs
        (partPath parent fname i) = none) := by
  have hmemord : ∀ i, i ∈ ord ↔ i < tasks := fun i => by
    rw [hperm.mem_iff, List.mem_range]
  unfold Fetcher.get_many
  rw [hp]
  dsimp only
  rw [hf]
  dsimp only
  rcases hrun : f.runParts env length tasks uris dst parent fname modified ord
    (W.create dst w) with ⟨results, w2⟩
  dsimp only
  have hresults := runParts_results f env length tasks uris dst parent fname modified
    resp ord (W.create dst w) (fun j hj => hresp j ((hmemord j).mp hj))
  rw [hrun] at hresults
  dsimp only at hresults
  have hfsdst : w2.fs dst = some ⟨[], none, none⟩ := by
    have h2 := runParts_fs_ne f env length tasks uris dst parent fname modified ord
      (W.create dst w) dst (fun i _ => (partPath_ne_dst i hp hf).symm)
    rw [hrun] at h2
    dsimp only at h2
    rw [h2]
    simp
  have hfsparts : ∀ i ∈ ord, w2.fs (partPath parent fname i) =
      some ⟨fileAfterGet (some (expectedLen length tasks i)) ((resp i).body),
        none, none⟩ := by
    intro i hi
    have h2 := runParts_fs_mem f env length tasks uris dst parent fname modified resp
      ord (W.create dst w) (fun j hj => hresp j ((hmemord j).mp hj)) i hi
    rw [hrun] at h2
    exact h2
  rcases hasm : assembleLoop env dst results (List.range tasks) w2 with ⟨ares, w3⟩
  have hspec := assembleLoop_spec env dst parent fname results
    (fun i => fileAfterGet (some (expectedLen length tasks i)) ((resp i).body))
    (List.range tasks) w2 [] none none
    (List.nodup_range tasks)
    (fun i hi => by
      rw [hresults]
      exact lookup_map_self _ ord i ((hmemord i).mpr (List.mem_range.mp hi)))
    (fun i hi => ⟨none, none, hfsparts i ((hmemord i).mpr (List.mem_range.mp hi))⟩)
    (fun i _ => partPath_ne_dst i hp hf)
    hfsdst
  rw [hasm] at hspec
  dsimp only at hspec
  obtain ⟨hres1, hfs1, hdel1, hfr1, _, _⟩ := hspec
  rw [hres1]
  dsimp only
  cases modified with
  | none =>
    dsimp only [applyModified]
    refine ⟨rfl, ?_, ?_⟩
    · rw [hfs1]
      simp
    · intro i hi hrm
      exact hdel1 i (List.mem_range.mpr hi) hrm
  | some t =>
    dsimp only [applyModified]
    simp only [hft, Bool.false_eq_true, if_false]
    refine ⟨trivial, ?_, ?_⟩
    · simp only [setTimes_fs, if_pos rfl, hfs1]
      simp
    · intro i hi hrm
      rw [setTimes_fs, if_neg (partPath_ne_dst i hp hf)]
      exact hdel1 i (List.mem_range.mpr hi) hrm

/-! part_size is never consumed: every engine entry point is invariant
under replacing the `part_size` field. -/

theorem readChunks_ps (cf cpf tm : Option Nat) (ev : Bool) (p1 p2 : Option Nat)
    (p d : Path) : ∀ (chunks : List (List Nat)) (pos : Nat) (w : W),
    readChunks ⟨cf, cpf, p1, tm, ev⟩ p d chunks pos w =
      readChunks ⟨cf, cpf, p2, tm, ev⟩ p d chunks pos w
  | [], _, _ => rfl
  | c :: rest, pos, w => by
    unfold readChunks
    split
    · rfl
    · dsimp only [emit]
      exact readChunks_ps cf cpf tm ev p1 p2 p d rest _ _

theorem get_ps (cf cpf tm : Option Nat) (ev : Bool) (p1 p2 : Option Nat) :
    ∀ (env : Env) (modified : Option Int) (req : Req) (p d : Path)
    (len : Option Nat) (w : W),
    Fetcher.get ⟨cf, cpf, p1, tm, ev⟩ env modified req p d len w =
      Fetcher.get ⟨cf, cpf, p2, tm, ev⟩ env modified req p d len w := by
  intro env modified req p d len w
  unfold Fetcher.get doRequest
  dsimp only
  cases env.client req with
  | error e => rfl
  | ok resp =>
    dsimp only
    cases validate resp with
    | error e => rfl
    | ok resp2 =>
      dsimp only
      split
      · rfl
      · rw [readChunks_ps cf cpf tm ev p1 p2]

theorem partFetch_ps (cf cpf tm : Option Nat) (ev : Bool) (p1 p2 : Option Nat) :
    ∀ (env : Env) (length tasks : Nat) (uris : List String) (dst parent : Path)
    (fname : String) (modified : Option Int) (task : Nat) (w : W),
    Fetcher.partFetch ⟨cf, cpf, p1, tm, ev⟩ env length tasks uris dst parent fname
      modified task w =
    Fetcher.partFetch ⟨cf, cpf, p2, tm, ev⟩ env length tasks uris dst parent fname
      modified task w := by
  intro env length tasks uris dst parent fname modified task w
  unfold Fetcher.partFetch
  dsimp only [emit]
  rw [get_ps cf cpf tm ev p1 p2]

theorem runParts_ps (cf cpf tm : Option Nat) (ev : Bool) (p1 p2 : Option Nat)
    (env : Env) (length tasks : Nat) (uris : List String) (dst parent : Path)
    (fname : String) (modified : Option Int) : ∀ (ord : List Nat) (w : W),
    Fetcher.runParts ⟨cf, cpf, p1, tm, ev⟩ env length tasks uris dst parent fname
      modified ord w =
    Fetcher.runParts ⟨cf, cpf, p2, tm, ev⟩ env length tasks uris dst parent fname
      modified ord w
  | [], _ => rfl
  | i :: rest, w => by
    unfold Fetcher.runParts
    rw [partFetch_ps cf cpf tm ev p1 p2]
    simp only [runParts_ps cf cpf tm ev p1 p2 env length tasks uris dst parent fname
      modified rest]

theorem get_many_ps (cf cpf tm : Option Nat) (ev : Bool) (p1 p2 : Option Nat) :
    ∀ (env : Env) (length tasks : Nat) (uris : List String) (dst : Path)
    (modified : Option Int) (ord : List Nat) (w : W),
    Fetcher.get_many ⟨cf, cpf, p1, tm, ev⟩ env length tasks uris dst modified ord w =
      Fetcher.get_many ⟨cf, cpf, p2, tm, ev⟩ env length tasks uris dst modified ord w := by
  intro env length tasks uris dst modified ord w
  unfold Fetcher.get_many
  cases Path.parent dst with
  | none => rfl
  | some parent =>
    dsimp only
    cases Path.fileName dst with
    | none => rfl
    | some fname =>
      dsimp only
      rw [runParts_ps cf cpf tm ev p1 p2]

theorem segPhase_ps (cf cpf tm : Option Nat) (ev : Bool) (p1 p2 : Option Nat) :
    ∀ (env : Env) (u : String) (uris : List String) (dst : Path) (ord : List Nat)
    (m : Option Int) (l : Option Nat) (w : W),
    Fetcher.segPhase ⟨cf, cpf, p1, tm, ev⟩ env u uris dst ord m l w =
      Fetcher.segPhase ⟨cf, cpf, p2, tm, ev⟩ env u uris dst ord m l w := by
  intro env u uris dst ord m l w
  unfold Fetcher.segPhase
  dsimp only [emit]
  simp only [get_many_ps cf cpf tm ev p1 p2]

theorem singleStream_ps (cf cpf tm : Option Nat) (ev : Bool) (p1 p2 : Option Nat) :
    ∀ (env : Env) (uri0 : String) (modified : Option Int) (ims : Option String)
    (dst : Path) (w : W),
    Fetcher.singleStream ⟨cf, cpf, p1, tm, ev⟩ env uri0 modified ims dst w =
      Fetcher.singleStream ⟨cf, cpf, p2, tm, ev⟩ env uri0 modified ims dst w := by
  intro env uri0 modified ims dst w
  unfold Fetcher.singleStream
  simp only [get_ps cf cpf tm ev p1 p2]

theorem request_ps (cf cpf tm : Option Nat) (ev : Bool) (p1 p2 : Option Nat) :
    ∀ (env : Env) (uris : List String) (dst : Path) (ord : List Nat) (w : W),
    Fetcher.request ⟨cf, cpf, p1, tm, ev⟩ env uris dst ord w =
      Fetcher.request ⟨cf, cpf, p2, tm, ev⟩ env uris dst ord w := by
  intro env uris dst ord w
  unfold Fetcher.request
  simp only [segPhase_ps cf cpf tm ev p1 p2, singleStream_ps cf cpf tm ev p1 p2]

theorem processSource_ps (cf cpf tm : Option Nat) (ev : Bool) (p1 p2 : Option Nat) :
    ∀ (env : Env) (s : Source) (ord : List Nat) (w : W),
    Fetcher.processSource ⟨cf, cpf, p1, tm, ev⟩ env s ord w =
      Fetcher.processSource ⟨cf, cpf, p2, tm, ev⟩ env s ord w := by
  intro env s ord w
  unfold Fetcher.processSource
  dsimp only [emit]
  simp only [request_ps cf cpf tm ev p1 p2]

theorem from_stream_ps (cf cpf tm : Option Nat) (ev : Bool) (p1 p2 : Option Nat)
    (env : Env) : ∀ (srcs : List Source) (ords : List (List Nat)) (w : W),
    Fetcher.from_stream ⟨cf, cpf, p1, tm, ev⟩ env srcs ords w =
      Fetcher.from_stream ⟨cf, cpf, p2, tm, ev⟩ env srcs ords w
  | [], _, _ => rfl
  | s :: rest, ords, w => by
    unfold Fetcher.from_stream
    rw [processSource_ps cf cpf tm ev p1 p2,
      from_stream_ps cf cpf tm ev p1 p2 env rest ords.tail]

/-- C9: two fetcher configurations that agree on everything except
`part_size` produce identical `request` and `from_stream` behaviour on
every input — `part_size` is stored by the builder but never consumed by
the fetch engine. -/
theorem part_size_no_effect (cf cpf tm : Option Nat) (ev : Bool)
    (p1 p2 : Option Nat) (env : Env) (uris : List String) (dst : Path)
    (ord : List Nat) (w : W) (srcs : List Source) (ords : List (List Nat))
    (w2 : W) :
    Fetcher.request ⟨cf, cpf, p1, tm, ev⟩ env uris dst ord w =
      Fetcher.request ⟨cf, cpf, p2, tm, ev⟩ env uris dst ord w ∧
    Fetcher.from_stream ⟨cf, cpf, p1, tm, ev⟩ env srcs ords w2 =
      Fetcher.from_stream ⟨cf, cpf, p2, tm, ev⟩ env srcs ords w2 ∧
    (Fetcher.partSize ⟨cf, cpf, p1, tm, ev⟩ 0).part_size = none :=
  ⟨request_ps cf cpf tm ev p1 p2 env uris dst ord w,
   from_stream_ps cf cpf tm ev p1 p2 env srcs ords w2, rfl⟩

theorem head_w (env : Env) (u : String) (w : W) :
    (head env u w).2 = { w with calls := w.calls ++ [⟨.head, u, []⟩] } := by
  unfold head doRequest
  dsimp only
  cases env.client ⟨.head, u, []⟩ with
  | error e => rfl
  | ok resp =>
    dsimp only
    cases validate resp with
    | ok r => rfl
    | error e =>
      cases e
      all_goals first
        | rfl
        | (split <;> rfl)

theorem supports_range_w (env : Env) (u : String) (len : Nat) (w : W) :
    (supports_range env u len w).2 =
      { w with calls := w.calls ++ [⟨.head, u, [("range", rangeToString 0 len)]⟩] } := by
  unfold supports_range doRequest
  dsimp only
  cases env.client ⟨.head, u, [("range", rangeToString 0 len)]⟩ with
  | error e => rfl
  | ok resp =>
    dsimp only
    split
    · rfl
    · cases validate resp <;> rfl

theorem freshCheck_events (env : Env) (u : String) (dst : Path) (w : W) :
    (freshCheck env u dst w).2.events = w.events := by
  unfold freshCheck
  split
  · rcases hh : head env u w with ⟨hr, w1⟩
    have hw1 : w1 = { w with calls := w.calls ++ [⟨.head, u, []⟩] } := by
      have := head_w env u w
      rw [hh] at this
      exact this
    subst hw1
    cases hr with
    | error e => rfl
    | ok oresp =>
      cases oresp with
      | none => rfl
      | some resp =>
        dsimp only
        repeat' split
        all_goals rfl
  · rfl

theorem freshCheck_fs_ne (env : Env) (u : String) (dst : Path) (w : W) (q : Path)
    (h : q ≠ dst) : (freshCheck env u dst w).2.fs q = w.fs q := by
  unfold freshCheck
  split
  · rcases hh : head env u w with ⟨hr, w1⟩
    have hw1 : w1 = { w with calls := w.calls ++ [⟨.head, u, []⟩] } := by
      have := head_w env u w
      rw [hh] at this
      exact this
    subst hw1
    cases hr with
    | error e => rfl
    | ok oresp =>
      cases oresp with
      | none => rfl
      | some resp =>
        dsimp only
        repeat' split
        all_goals simp [h]
  · rfl

theorem segPhase_countFetched (dT : Path) (f : Fetcher) (env : Env) (u : String)
    (uris : List String) (dst : Path) (ord : List Nat) (m : Option Int)
    (l : Option Nat) (w : W) :
    countFetched dT (f.segPhase env u uris dst ord m l w).2.events =
      countFetched dT w.events := by
  unfold Fetcher.segPhase
  cases f.connections_per_file with
  | none => rfl
  | some tasks =>
    dsimp only
    rcases hh : head env u w with ⟨hr, w1⟩
    have hw1 : w1 = { w with calls := w.calls ++ [⟨.head, u, []⟩] } := by
      have := head_w env u w
      rw [hh] at this
      exact this
    subst hw1
    cases hr with
    | error e => rfl
    | ok oresp =>
      cases oresp with
      | none => rfl
      | some resp =>
        dsimp only
        split
        · rfl
        · rename_i len _
          rcases hsr : supports_range env u len
            { w with calls := w.calls ++ [⟨.head, u, []⟩] } with ⟨sr, w2⟩
          have hw2 : w2 = { w with calls :=
              (w.calls ++ [⟨.head, u, []⟩]) ++
                [⟨.head, u, [("range", rangeToString 0 len)]⟩] } := by
            have := supports_range_w env u len
              { w with calls := w.calls ++ [⟨.head, u, []⟩] }
            rw [hsr] at this
            exact this
          subst hw2
          cases sr with
          | error e => rfl
          | ok b =>
            cases b with
            | false => rfl
            | true =>
              dsimp only
              rcases hgm : f.get_many env len tasks uris dst
                (last_modified env resp.headers) ord
                (emit f (.ContentLength dst len)
                  { w with calls :=
                    (w.calls ++ [⟨.head, u, []⟩]) ++
                      [⟨.head, u, [("range", rangeToString 0 len)]⟩] })
                with ⟨gr, w3⟩
              dsimp only
              have hev := get_many_countFetched dT f env len tasks uris dst
                (last_modified env resp.headers) ord
                (emit f (.ContentLength dst len)
                  { w with calls :=
                    (w.calls ++ [⟨.head, u, []⟩]) ++
                      [⟨.head, u, [("range", rangeToString 0 len)]⟩] })
              rw [hgm] at hev
              dsimp only at hev
              rw [hev, emit_countFetched dT f _ _ (countFetched_contentLength dT dst len)]

theorem segPhase_fs_ne (f : Fetcher) (env : Env) (u : String) (uris : List String)
    (dst : Path) (ord : List Nat) (m : Option Int) (l : Option Nat) (w : W)
    (q : Path) (h : ¬inFootprint dst q) :
    (f.segPhase env u uris dst ord m l w).2.fs q = w.fs q := by
  unfold Fetcher.segPhase
  cases f.connections_per_file with
  | none => rfl
  | some tasks =>
    dsimp only
    rcases hh : head env u w with ⟨hr, w1⟩
    have hw1 : w1 = { w with calls := w.calls ++ [⟨.head, u, []⟩] } := by
      have := head_w env u w
      rw [hh] at this
      exact this
    subst hw1
    cases hr with
    | error e => rfl
    | ok oresp =>
      cases oresp with
      | none => rfl
      | some resp =>
        dsimp only
        split
        · rfl
        · rename_i len _
          rcases hsr : supports_range env u len
            { w with calls := w.calls ++ [⟨.head, u, []⟩] } with ⟨sr, w2⟩
          have hw2 : w2 = { w with calls :=
              (w.calls ++ [⟨.head, u, []⟩]) ++
                [⟨.head, u, [("range", rangeToString 0 len)]⟩] } := by
            have := supports_range_w env u len
              { w with calls := w.calls ++ [⟨.head, u, []⟩] }
            rw [hsr] at this
            exact this
          subst hw2
          cases sr with
          | error e => rfl
          | ok b =>
            cases b with
            | false => rfl
            | true =>
              dsimp only
              rcases hgm : f.get_many env len tasks uris dst
                (last_modified env resp.headers) ord
                (emit f (.ContentLength dst len)
                  { w with calls :=
                    (w.calls ++ [⟨.head, u, []⟩]) ++
                      [⟨.head, u, [("range", rangeToString 0 len)]⟩] })
                with ⟨gr, w3⟩
              dsimp only
              have hfs := get_many_fs_ne f env len tasks uris dst
                (last_modified env resp.headers) ord
                (emit f (.ContentLength dst len)
                  { w with calls :=
                    (w.calls ++ [⟨.head, u, []⟩]) ++
                      [⟨.head, u, [("range", rangeToString 0 len)]⟩] }) q h
              rw [hgm] at hfs
              dsimp only at hfs
              rw [hfs, emit_fs]

theorem singleStream_countFetched (dT : Path) (f : Fetcher) (env : Env)
    (uri0 : String) (m : Option Int) (ims : Option String) (dst : Path) (w : W) :
    countFetched dT (f.singleStream env uri0 m ims dst w).2.events =
      countFetched dT w.events := by
  unfold Fetcher.singleStream
  dsimp only
  generalize (⟨Method.get, uri0,
    match ims with
    | some s => [("if-modified-since", s)]
    | none => []⟩ : Req) = req1
  rcases hget : f.get env m req1 dst dst none w with ⟨⟨r, m3⟩, w3⟩
  have hev3 := get_countFetched dT f env m req1 dst dst none w
  rw [hget] at hev3
  dsimp only at hev3
  split
  · rename_i path m4 w4 heq
    try rw [hget] at heq
    cases heq
    rw [applyModified_events, hev3]
  · rename_i m4 w4 heq
    try rw [hget] at heq
    cases heq
    rcases hget2 : f.get env m3 ⟨.get, uri0, []⟩ dst dst none w3
      with ⟨⟨r2, m5⟩, w5⟩
    have hev5 := get_countFetched dT f env m3 ⟨.get, uri0, []⟩ dst dst none w3
    rw [hget2] at hev5
    dsimp only at hev5
    split
    · rename_i path2 m6 w6 heq2
      try rw [hget2] at heq2
      cases heq2
      rw [applyModified_events, hev5, hev3]
    · rename_i e2 m6 w6 heq2
      try rw [hget2] at heq2
      cases heq2
      dsimp only
      rw [hev5, hev3]
  · rename_i e m4 w4 heq
    try rw [hget] at heq
    cases heq
    dsimp only
    rw [hev3]

theorem singleStream_fs_ne (f : Fetcher) (env : Env) (uri0 : String)
    (m : Option Int) (ims : Option String) (dst : Path) (w : W) (q : Path)
    (hqd : q ≠ dst) :
    (f.singleStream env uri0 m ims dst w).2.fs q = w.fs q := by
  unfold Fetcher.singleStream
  dsimp only
  generalize (⟨Method.get, uri0,
    match ims with
    | some s => [("if-modified-since", s)]
    | none => []⟩ : Req) = req1
  rcases hget : f.get env m req1 dst dst none w with ⟨⟨r, m3⟩, w3⟩
  have hfs3 := get_fs_ne f env m req1 dst dst none w q hqd
  rw [hget] at hfs3
  dsimp only at hfs3
  have hshape := get_result_shape f env m req1 dst dst none w
  rw [hget] at hshape
  dsimp only at hshape
  split
  · rename_i path m4 w4 heq
    try rw [hget] at heq
    cases heq
    have hpath : path = dst := by
      rcases hshape with hok | ⟨e, herr⟩
      · exact Except.ok.inj hok
      · simp_all
    rw [hpath, applyModified_fs_ne env m3 dst w3 q hqd, hfs3]
  · rename_i m4 w4 heq
    try rw [hget] at heq
    cases heq
    rcases hget2 : f.get env m3 ⟨.get, uri0, []⟩ dst dst none w3
      with ⟨⟨r2, m5⟩, w5⟩
    have hfs5 := get_fs_ne f env m3 ⟨.get, uri0, []⟩ dst dst none w3 q hqd
    rw [hget2] at hfs5
    dsimp only at hfs5
    have hshape2 := get_result_shape f env m3 ⟨.get, uri0, []⟩ dst dst none w3
    rw [hget2] at hshape2
    dsimp only at hshape2
    split
    · rename_i path2 m6 w6 heq2
      try rw [hget2] at heq2
      cases heq2
      have hpath2 : path2 = dst := by
        rcases hshape2 with hok | ⟨e2, herr⟩
        · exact Except.ok.inj hok
        · simp_all
      rw [hpath2, applyModified_fs_ne env m5 dst w5 q hqd, hfs5, hfs3]
    · rename_i e2 m6 w6 heq2
      try rw [hget2] at heq2
      cases heq2
      dsimp only
      rw [hfs5, hfs3]
  · rename_i e m4 w4 heq
    try rw [hget] at heq
    cases heq
    dsimp only
    rw [hfs3]

theorem request_countFetched (dT : Path) (f : Fetcher) (env : Env)
    (uris : List String) (dst : Path) (ord : List Nat) (w : W) :
    countFetched dT (f.request env uris dst ord w).2.events =
      countFetched dT w.events := by
  unfold Fetcher.request
  dsimp only
  rcases hfc : freshCheck env (uris.headD "") dst w with ⟨fo, w1⟩
  have hev1 := freshCheck_events env (uris.headD "") dst w
  rw [hfc] at hev1
  dsimp only at hev1
  clear hfc
  cases fo with
  | done r =>
    dsimp only
    rw [hev1]
  | cont m l ims =>
    dsimp only
    rcases hsp : f.segPhase env (uris.headD "") uris dst ord m l w1 with ⟨so, w2⟩
    have hev2 := segPhase_countFetched dT f env (uris.headD "") uris dst ord m l w1
    rw [hsp] at hev2
    dsimp only at hev2
    clear hsp
    cases so with
    | done r =>
      dsimp only
      rw [hev2, hev1]
    | cont m2 =>
      dsimp only
      rw [singleStream_countFetched dT f env (uris.headD "") m2 ims dst w2,
        hev2, hev1]

theorem request_fs_ne (f : Fetcher) (env : Env) (uris : List String) (dst : Path)
    (ord : List Nat) (w : W) (q : Path) (h : ¬inFootprint dst q) :
    (f.request env uris dst ord w).2.fs q = w.fs q := by
  have hqd : q ≠ dst := fun hc => h (Or.inl hc)
  unfold Fetcher.request
  dsimp only
  rcases hfc : freshCheck env (uris.headD "") dst w with ⟨fo, w1⟩
  have hfs1 := freshCheck_fs_ne env (uris.headD "") dst w q hqd
  rw [hfc] at hfs1
  dsimp only at hfs1
  clear hfc
  cases fo with
  | done r =>
    dsimp only
    rw [hfs1]
  | cont m l ims =>
    dsimp only
    rcases hsp : f.segPhase env (uris.headD "") uris dst ord m l w1 with ⟨so, w2⟩
    have hfs2 := segPhase_fs_ne f env (uris.headD "") uris dst ord m l w1 q h
    rw [hsp] at hfs2
    dsimp only at hfs2
    clear hsp
    cases so with
    | done r =>
      dsimp only
      rw [hfs2, hfs1]
    | cont m2 =>
      dsimp only
      rw [singleStream_fs_ne f env (uris.headD "") m2 ims dst w2 q hqd, hfs2, hfs1]

/-- C2: in the segmented downloader, for every part count `N ≥ 2` and
every completion order of the `N` part downloads (any permutation of the
part indices), the final file's content is the concatenation of the part
files in strictly ascending part-index order, and each part file is
deleted after it is appended — a deletion failure being non-fatal (the
success result does not depend on `removeFail`). -/
theorem get_many_concat_ordered (f : Fetcher) (env : Env) (length tasks : Nat)
    (uris : List String) (dst parent : Path) (fname : String)
    (modified : Option Int) (ord : List Nat) (w : W) (resp : Nat → Resp)
    (_hN : 2 ≤ tasks)
    (hp : Path.parent dst = some parent)
    (hf : Path.fileName dst = some fname)
    (hperm : ord.Perm (List.range tasks))
    (hresp : ∀ i, i < tasks →
      env.client (partReq length tasks uris i) = .ok (resp i) ∧ (resp i).status < 300)
    (hft : env.ftimeFail dst = false) :
    (f.get_many env length tasks uris dst modified ord w).1 = .ok () ∧
    (f.get_many env length tasks uris dst modified ord w).2.fs dst =
      some ⟨((List.range tasks).map fun i =>
          fileAfterGet (some (expectedLen length tasks i)) ((resp i).body)).flatten,
        modified, modified⟩ ∧
    (∀ i, i < tasks → env.removeFail (partPath parent fname i) = false →
      (f.get_many env length tasks uris dst modified ord w).2.fs
        (partPath parent fname i) = none) :=
  get_many_spec f env length tasks uris dst parent fname modified ord w resp
    hp hf hperm hresp hft

theorem get_many_concat_ordered_witness :
    (fEv.get_many envSeg 4 2 ["u"] pathTX none [1, 0] w0).1 = .ok () ∧
    (fEv.get_many envSeg 4 2 ["u"] pathTX none [1, 0] w0).2.fs pathTX =
      some ⟨[1, 2, 3, 4], none, none⟩ ∧
    (∀ i, i < 2 → envSeg.removeFail (partPath ["t"] "x" i) = false →
      (fEv.get_many envSeg 4 2 ["u"] pathTX none [1, 0] w0).2.fs
        (partPath ["t"] "x" i) = none) :=
  get_many_concat_ordered fEv envSeg 4 2 ["u"] pathTX ["t"] "x" none [1, 0] w0 respSeg
    (by decide) rfl rfl (by decide)
    (by
      intro i hi
      interval_cases i
      · exact ⟨rfl, by decide⟩
      · exact ⟨rfl, by decide⟩)
    rfl

/-- The freshness check does nothing when no local file exists. -/
theorem freshCheck_noFile (env : Env) (u : String) (dst : Path) (w : W)
    (h : w.fs dst = none) :
    freshCheck env u dst w = (.cont none none none, w) := by
  unfold freshCheck
  simp [h]

/-- The full single-stream path of `Fetcher::request` with no local file
and no segmented configuration: one plain GET streamed into the
destination, then the observed `Last-Modified` applied as the file
times. -/
theorem request_single_stream (f : Fetcher) (env : Env) (u : String)
    (rest : List String) (dst : Path) (ord : List Nat) (w : W) (resp : Resp)
    (hconn : f.connections_per_file = none)
    (hnf : w.fs dst = none)
    (hc : env.client ⟨.get, u, []⟩ = .ok resp)
    (hs : resp.status < 300) :
    f.request env (u :: rest) dst ord w =
      applyModified env (last_modified env resp.headers) dst
        { w with
          fs := fun q =>
            if q = dst then some ⟨fileAfterGet none resp.body, none, none⟩ else w.fs q,
          events := w.events ++ (if f.hasEvents then chunkEvents dst resp.body else []),
          calls := w.calls ++ [⟨.get, u, []⟩] } := by
  unfold Fetcher.request
  dsimp only
  simp only [List.headD_cons]
  rw [freshCheck_noFile env u dst w hnf]
  dsimp only
  rw [segPhase_none f env u (u :: rest) dst ord none none w hconn]
  dsimp only
  unfold Fetcher.singleStream
  dsimp only
  rw [get_ok f env none ⟨.get, u, []⟩ dst dst none w resp hc hs]
  rfl

/-- C8: after a successful fetch that observed a server `Last-Modified`
value `T` — single-stream (first conjunct) or segmented (second conjunct,
`modified` hint `some T`) — the destination's mtime and atime are both set
to `T` in whole seconds; and if setting the times fails, the call fails
with `FileTime(path, err)` (third conjunct). -/
theorem timestamp_round_trip :
    (∀ (f : Fetcher) (env : Env) (u : String) (rest : List String) (dst : Path)
      (ord : List Nat) (w : W) (resp : Resp) (T : Int),
      f.connections_per_file = none →
      w.fs dst = none →
      env.client ⟨.get, u, []⟩ = .ok resp →
      resp.status < 300 →
      last_modified env resp.headers = some T →
      env.ftimeFail dst = false →
      (f.request env (u :: rest) dst ord w).1 = .ok () ∧
      (f.request env (u :: rest) dst ord w).2.fs dst =
        some ⟨fileAfterGet none resp.body, some T, some T⟩) ∧
    (∀ (f : Fetcher) (env : Env) (length tasks : Nat) (uris : List String)
      (dst parent : Path) (fname : String) (T : Int) (ord : List Nat) (w : W)
      (resp : Nat → Resp),
      Path.parent dst = some parent →
      Path.fileName dst = some fname →
      ord.Perm (List.range tasks) →
      (∀ i, i < tasks → env.client (partReq length tasks uris i) = .ok (resp i) ∧
        (resp i).status < 300) →
      env.ftimeFail dst = false →
      (f.get_many env length tasks uris dst (some T) ord w).1 = .ok () ∧
      (f.get_many env length tasks uris dst (some T) ord w).2.fs dst =
        some ⟨((List.range tasks).map fun i =>
            fileAfterGet (some (expectedLen length tasks i)) ((resp i).body)).flatten,
          some T, some T⟩) ∧
    (∀ (f : Fetcher) (env : Env) (u : String) (rest : List String) (dst : Path)
      (ord : List Nat) (w : W) (resp : Resp) (T : Int),
      f.connections_per_file = none →
      w.fs dst = none →
      env.client ⟨.get, u, []⟩ = .ok resp →
      resp.status < 300 →
      last_modified env resp.headers = some T →
      env.ftimeFail dst = true →
      (f.request env (u :: rest) dst ord w).1 = .error (.FileTime dst "io")) := by
  refine ⟨?_, ?_, ?_⟩
  · intro f env u rest dst ord w resp T hconn hnf hc hs hlm hft
    rw [request_single_stream f env u rest dst ord w resp hconn hnf hc hs, hlm]
    unfold applyModified
    simp only [hft, Bool.false_eq_true, if_false]
    refine ⟨trivial, ?_⟩
    simp
  · intro f env length tasks uris dst parent fname T ord w resp hp hf hperm hresp hft
    obtain ⟨h1, h2, _⟩ := get_many_spec f env length tasks uris dst parent fname
      (some T) ord w resp hp hf hperm hresp hft
    exact ⟨h1, h2⟩
  · intro f env u rest dst ord w resp T hconn hnf hc hs hlm hft
    rw [request_single_stream f env u rest dst ord w resp hconn hnf hc hs, hlm]
    unfold applyModified
    simp [hft]

theorem timestamp_round_trip_witness :
    ((fPlain.request envSingle ["u"] pathTX [] w0).1 = .ok () ∧
     (fPlain.request envSingle ["u"] pathTX [] w0).2.fs pathTX =
       some ⟨[5, 6, 7], some 1445412480, some 1445412480⟩) ∧
    ((fEv.get_many envSeg 4 2 ["u"] pathTX (some 99) [0, 1] w0).1 = .ok () ∧
     (fEv.get_many envSeg 4 2 ["u"] pathTX (some 99) [0, 1] w0).2.fs pathTX =
       some ⟨[1, 2, 3, 4], some 99, some 99⟩) ∧
    (fPlain.request envSingleFT ["u"] pathTX [] w0).1 =
      .error (.FileTime pathTX "io") :=
  ⟨timestamp_round_trip.1 fPlain envSingle "u" [] pathTX [] w0
      ⟨200, [("last-modified", "LM")], [[5, 6], [7]]⟩ 1445412480
      rfl rfl rfl (by decide) rfl rfl,
   timestamp_round_trip.2.1 fEv envSeg 4 2 ["u"] pathTX ["t"] "x" 99 [0, 1] w0 respSeg
      rfl rfl (by decide)
      (by
        intro i hi
        interval_cases i
        · exact ⟨rfl, by decide⟩
        · exact ⟨rfl, by decide⟩)
      rfl,
   timestamp_round_trip.2.2 fPlain envSingleFT "u" [] pathTX [] w0
      ⟨200, [("last-modified", "LM")], [[5, 6], [7]]⟩ 1445412480
      rfl rfl rfl (by decide) rfl rfl⟩

/-! Terminal-event accounting and part-path atomicity of the multi-file
driver. -/

/-- Emitting a `Fetched` event with a sender attached adds one to the
count for its destination and nothing elsewhere. -/
theorem countFetched_emit_fetched (d : Path) (f : Fetcher) (p : Path)
    (r : Except Error Unit) (w : W) (hev : f.hasEvents = true) :
    countFetched d (emit f (.Fetched p r) w).events =
      countFetched d w.events + (if p = d then 1 else 0) := by
  rw [emit_events, hev]
  simp only [if_true]
  rw [countFetched_append, countFetched_fetched]

/-- One `from_stream` job adds exactly one `Fetched(s.dest, _)` terminal
event (and no `Fetched` event for any other destination), whether the
orchestrator succeeded, failed, or the final rename failed. -/
theorem processSource_countFetched (d : Path) (f : Fetcher) (env : Env)
    (s : Source) (ord : List Nat) (w : W) (hev : f.hasEvents = true) :
    countFetched d (f.processSource env s ord w).events =
      countFetched d w.events + (if s.dest = d then 1 else 0) := by
  unfold Fetcher.processSource
  dsimp only
  cases hpart : s.part with
  | none =>
    try rw [hpart]
    try dsimp only
    rcases hreq : f.request env s.urls s.dest ord (emit f (.Fetching s.dest) w)
      with ⟨r, w2⟩
    have h1 := request_countFetched d f env s.urls s.dest ord
      (emit f (.Fetching s.dest) w)
    rw [hreq] at h1
    dsimp only at h1
    try rw [hreq]
    try dsimp only
    rw [countFetched_emit_fetched d f s.dest r w2 hev, h1,
      emit_countFetched d f _ w (countFetched_fetching d s.dest)]
  | some p =>
    try rw [hpart]
    try dsimp only
    rcases hreq : f.request env s.urls p ord (emit f (.Fetching s.dest) w)
      with ⟨r, w2⟩
    have h1 := request_countFetched d f env s.urls p ord
      (emit f (.Fetching s.dest) w)
    rw [hreq] at h1
    dsimp only at h1
    try rw [hreq]
    try dsimp only
    cases r with
    | ok u =>
      cases u
      try dsimp only
      cases hre : env.renameErr p s.dest with
      | some e =>
        try rw [hre]
        try dsimp only
        rw [countFetched_emit_fetched d f s.dest _ w2 hev, h1,
          emit_countFetched d f _ w (countFetched_fetching d s.dest)]
      | none =>
        try rw [hre]
        try dsimp only
        rw [countFetched_emit_fetched d f s.dest _ (W.rename p s.dest w2) hev,
          rename_events, h1,
          emit_countFetched d f _ w (countFetched_fetching d s.dest)]
    | error e =>
      try dsimp only
      rw [countFetched_emit_fetched d f s.dest _ w2 hev, h1,
        emit_countFetched d f _ w (countFetched_fetching d s.dest)]

/-- The driver returns `Ok(())` whatever the jobs did, and the number of
terminal `Fetched` events for any destination grows by exactly the number
of consumed jobs naming that destination. -/
theorem from_stream_countFetched (dX : Path) (f : Fetcher) (env : Env)
    (hev : f.hasEvents = true) :
    ∀ (srcs : List Source) (ords : List (List Nat)) (w : W),
    (f.from_stream env srcs ords w).1 = Except.ok () ∧
    countFetched dX (f.from_stream env srcs ords w).2.events =
      countFetched dX w.events +
        (srcs.filter fun s => decide (s.dest = dX)).length
  | [], ords, w => ⟨rfl, by simp [Fetcher.from_stream]⟩
  | s :: rest, ords, w => by
    unfold Fetcher.from_stream
    obtain ⟨h1, h2⟩ := from_stream_countFetched dX f env hev rest ords.tail
      (f.processSource env s (ords.headD []) w)
    refine ⟨h1, ?_⟩
    rw [h2, processSource_countFetched dX f env s (ords.headD []) w hev,
      List.filter_cons]
    by_cases hd : s.dest = dX
    · simp [hd]
      try omega
    · simp [hd]
      try omega

/-- C6: with an event sender attached, every `Source` job consumed by
`from_stream` emits exactly one terminal `Fetched(source.dest, result)`
event — for every destination `d`, the count of `Fetched(d, _)` events
grows by exactly the number of jobs whose `dest` is `d`, whether each job
succeeded or failed — and `from_stream` returns `Ok(())` unconditionally:
an individual job's failure never aborts the processing of the remaining
jobs. -/
theorem from_stream_one_fetched_per_job (f : Fetcher) (env : Env)
    (srcs : List Source) (ords : List (List Nat)) (w : W) (d : Path)
    (hev : f.hasEvents = true) :
    (f.from_stream env srcs ords w).1 = Except.ok () ∧
    countFetched d (f.from_stream env srcs ords w).2.events =
      countFetched d w.events +
        (srcs.filter fun s => decide (s.dest = d)).length :=
  from_stream_countFetched d f env hev srcs ords w

theorem from_stream_one_fetched_per_job_witness :
    (fEv.from_stream env304 [⟨["u"], pathTX, none⟩, ⟨["u"], pathTX, none⟩]
      [[], []] w304).1 = Except.ok () ∧
    countFetched pathTX (fEv.from_stream env304
      [⟨["u"], pathTX, none⟩, ⟨["u"], pathTX, none⟩] [[], []] w304).2.events =
      countFetched pathTX w304.events +
        (([⟨["u"], pathTX, none⟩, ⟨["u"], pathTX, none⟩] : List Source).filter
          fun s => decide (s.dest = pathTX)).length :=
  from_stream_one_fetched_per_job fEv env304
    [⟨["u"], pathTX, none⟩, ⟨["u"], pathTX, none⟩] [[], []] w304 pathTX rfl

/-- C7: for a `Source` whose `part` field is present, the driver's per-job
block runs the orchestrator with the part path as destination; when the
orchestrator fails, no rename happens and the destination is neither
created nor modified; when it succeeds, `part` is renamed onto `dest`
(so `dest` receives the orchestrator's output for `part`), and a failing
rename surfaces as the `Rename` error instead. -/
theorem from_stream_part_atomic (f : Fetcher) (env : Env) (s : Source)
    (p : Path) (ord : List Nat) (w : W)
    (hp : s.part = some p)
    (hfoot : ¬inFootprint p s.dest) :
    (∀ e, (f.request env s.urls p ord (emit f (.Fetching s.dest) w)).1 =
        Except.error e →
      f.processSource env s ord w =
        emit f (.Fetched s.dest (.error e))
          (f.request env s.urls p ord (emit f (.Fetching s.dest) w)).2 ∧
      (f.processSource env s ord w).fs s.dest = w.fs s.dest) ∧
    ((f.request env s.urls p ord (emit f (.Fetching s.dest) w)).1 =
        Except.ok () →
      (env.renameErr p s.dest = none →
        f.processSource env s ord w =
          emit f (.Fetched s.dest (.ok ()))
            (W.rename p s.dest
              (f.request env s.urls p ord (emit f (.Fetching s.dest) w)).2) ∧
        (f.processSource env s ord w).fs s.dest =
          (f.request env s.urls p ord (emit f (.Fetching s.dest) w)).2.fs p) ∧
      (∀ e, env.renameErr p s.dest = some e →
        f.processSource env s ord w =
          emit f (.Fetched s.dest (.error (.Rename e)))
            (f.request env s.urls p ord (emit f (.Fetching s.dest) w)).2)) := by
  have hfsreq := request_fs_ne f env s.urls p ord (emit f (.Fetching s.dest) w)
    s.dest hfoot
  unfold Fetcher.processSource
  rw [hp]
  dsimp only
  rcases hreq : f.request env s.urls p ord (emit f (.Fetching s.dest) w)
    with ⟨r, w2⟩
  rw [hreq] at hfsreq
  dsimp only at hfsreq
  rw [emit_fs] at hfsreq
  try rw [hreq]
  dsimp only
  refine ⟨?_, ?_⟩
  · intro e he
    try dsimp only at he
    subst he
    try dsimp only
    exact ⟨rfl, by rw [emit_fs, hfsreq]⟩
  · intro hok
    try dsimp only at hok
    subst hok
    try dsimp only
    cases hre : env.renameErr p s.dest with
    | none =>
      try rw [hre]
      try dsimp only
      refine ⟨fun _ => ⟨rfl, ?_⟩, ?_⟩
      · rw [emit_fs, rename_fs]
        simp
      · intro e1 h1
        try rw [hre] at h1
        cases h1
    | some e0 =>
      try rw [hre]
      try dsimp only
      refine ⟨fun hcon => ?_, ?_⟩
      · try rw [hre] at hcon
        cases hcon
      · intro e1 h1
        try rw [hre] at h1
        cases h1
        rfl

theorem from_stream_part_atomic_witness :
    (∀ e, (fEv.request envSingle ["u"] ["t", "px"] []
        (emit fEv (.Fetching ["x"]) w0)).1 = Except.error e →
      fEv.processSource envSingle ⟨["u"], ["x"], some ["t", "px"]⟩ [] w0 =
        emit fEv (.Fetched ["x"] (.error e))
          (fEv.request envSingle ["u"] ["t", "px"] []
            (emit fEv (.Fetching ["x"]) w0)).2 ∧
      (fEv.processSource envSingle ⟨["u"], ["x"], some ["t", "px"]⟩ [] w0).fs ["x"] =
        w0.fs ["x"]) ∧
    ((fEv.request envSingle ["u"] ["t", "px"] []
        (emit fEv (.Fetching ["x"]) w0)).1 = Except.ok () →
      (envSingle.renameErr ["t", "px"] ["x"] = none →
        fEv.processSource envSingle ⟨["u"], ["x"], some ["t", "px"]⟩ [] w0 =
          emit fEv (.Fetched ["x"] (.ok ()))
            (W.rename ["t", "px"] ["x"]
              (fEv.request envSingle ["u"] ["t", "px"] []
                (emit fEv (.Fetching ["x"]) w0)).2) ∧
        (fEv.processSource envSingle ⟨["u"], ["x"], some ["t", "px"]⟩ [] w0).fs ["x"] =
          (fEv.request envSingle ["u"] ["t", "px"] []
            (emit fEv (.Fetching ["x"]) w0)).2.fs ["t", "px"]) ∧
      (∀ e, envSingle.renameErr ["t", "px"] ["x"] = some e →
        fEv.processSource envSingle ⟨["u"], ["x"], some ["t", "px"]⟩ [] w0 =
          emit fEv (.Fetched ["x"] (.error (.Rename e)))
            (fEv.request envSingle ["u"] ["t", "px"] []
              (emit fEv (.Fetching ["x"]) w0)).2)) :=
  from_stream_part_atomic fEv envSingle ⟨["u"], ["x"], some ["t", "px"]⟩
    ["t", "px"] [] w0 rfl
    (by
      rintro (h | ⟨parent, fname, i, hpp, hf, hq⟩)
      · exact absurd h (by decide)
      · have hparent : parent = ["t"] := by
          simp [Path.parent] at hpp
          exact hpp.symm
        subst hparent
        have hlen := congrArg List.length hq
        simp [partPath] at hlen)

end AsyncFetcher
